import Mathlib

/-!
Shallow embedding of the timeline-coordinate and timezone-registry core of the
`alltz` terminal application (sources: `src/ui/timeline.rs`, `src/time.rs`),
with proofs about that embedding.

Modelling conventions:

* UTC instants and local civil datetimes are whole seconds (`ℤ`), matching the
  second-precision `chrono` values the program manipulates
  (`Duration::num_seconds`, `local_minus_utc`, hour stepping, midnights).
* The program computes a handful of `f64` expressions (`width / 2.0`,
  `clamp`, ratio of second counts, `round`).  These are modelled exactly over
  `ℚ`; every concrete `f64` value the claims mention (`48.0`, `100.0`,
  `168.0`, half-integers `width / 2.0`) is exactly representable, and the
  claims proved about the ratio computation (monotonicity, endpoint values,
  clamping) are invariant under the monotone, exact-at-the-endpoints rounding
  of `f64` arithmetic.
* Rust integer division on `i32`/`i64` truncates toward zero: `Int.tdiv`.
* Rust `as i64` on a nonnegative float truncates: `Int.floor`.
* Rust `as u16` on a float saturates to `[0, 65535]`.
* The `chrono-tz` timezone database is abstracted as explicit function
  parameters: the fixed UTC offset of a zone at a UTC instant, and the
  resolution of a local wall-clock datetime to a UTC instant
  (`from_local_datetime(..).single()`).
* Rust `Vec::sort_by` / `sort_by_key` are stable sorts; any two stable sorts
  with the same total preorder agree pointwise, so they are modelled by
  Mathlib `List.insertionSort` over the corresponding relation.
-/

namespace Alltz

/-! ## Timeline geometry (`src/ui/timeline.rs`) -/

/-- Rust `f64::clamp(lo, hi)`: `lo` if the value is below `lo`, `hi` if above
`hi`, the value itself otherwise. -/
def clampQ (x lo hi : ℚ) : ℚ := if x < lo then lo else if x > hi then hi else x

/-- `TimelineWidget::get_timeline_hours` (timeline.rs:64-76):
`(width as f64 / OPTIMAL_CHARS_PER_HOUR).clamp(MIN_HOURS, MAX_HOURS)` with
`OPTIMAL_CHARS_PER_HOUR = 2.0`, `MIN_HOURS = 48.0`, `MAX_HOURS = 168.0`. -/
def get_timeline_hours (width : ℕ) : ℚ := clampQ ((width : ℚ) / 2) 48 168

/-- The minute count `(hours_before * 60.0) as i64` with
`hours_before = total_hours / 2.0`, shared by `get_timeline_start` and
`get_timeline_end` (timeline.rs:78-88).  The value is nonnegative, so the
truncating `as i64` cast is `Int.floor`. -/
def half_window_minutes (width : ℕ) : ℤ :=
  Int.floor ((get_timeline_hours width / 2) * 60)

/-- `TimelineWidget::get_timeline_start` (timeline.rs:78-82):
`timeline_position - Duration::minutes((hours_before * 60.0) as i64)`,
in seconds. -/
def get_timeline_start (pos : ℤ) (width : ℕ) : ℤ :=
  pos - 60 * half_window_minutes width

/-- `TimelineWidget::get_timeline_end` (timeline.rs:84-88). -/
def get_timeline_end (pos : ℤ) (width : ℕ) : ℤ :=
  pos + 60 * half_window_minutes width

/-- Rust `f64::round`: round half away from zero. -/
def roundHalfAway (q : ℚ) : ℤ :=
  if 0 ≤ q then Int.floor (q + 1/2) else Int.ceil (q - 1/2)

/-- Rust `as u16` applied to a finite float value: saturate into `[0, 65535]`. -/
def castU16 (z : ℤ) : ℕ := (min (max z 0) 65535).toNat

/-- `TimelineWidget::time_to_position` (timeline.rs:90-103).  `width - 1` is
natural subtraction, matching `width.saturating_sub(1)`. -/
def time_to_position (pos : ℤ) (width : ℕ) (time : ℤ) : ℕ :=
  let start := get_timeline_start pos width
  let e := get_timeline_end pos width
  let total_duration := e - start
  let time_duration := time - start
  if total_duration = 0 then 0
  else
    min (castU16 (roundHalfAway
          ((time_duration : ℚ) / (total_duration : ℚ) * (width : ℚ))))
      (width - 1)

/-- Closed form for `half_window_minutes`: the clamp and the exact `f64`
operations collapse to integer arithmetic. -/
theorem half_window_minutes_eq (w : ℕ) :
    half_window_minutes w = max 1440 (min 5040 (15 * (w : ℤ))) := by
  unfold half_window_minutes get_timeline_hours clampQ
  rcases lt_or_le ((w : ℚ) / 2) 48 with h | h
  · rw [if_pos h]
    have hw2 : (w : ℤ) < 96 := by exact_mod_cast (by linarith : (w : ℚ) < 96)
    norm_num
    omega
  · rw [if_neg (not_lt.mpr h)]
    rcases lt_or_le (168 : ℚ) ((w : ℚ) / 2) with h2 | h2
    · rw [if_pos h2]
      have hw2 : (336 : ℤ) < w := by
        exact_mod_cast (by linarith : (336 : ℚ) < w)
      norm_num
      omega
    · rw [if_neg (not_lt.mpr h2)]
      have h1' : (96 : ℤ) ≤ w := by
        exact_mod_cast (by linarith : (96 : ℚ) ≤ w)
      have h3' : (w : ℤ) ≤ 336 := by
        exact_mod_cast (by linarith : (w : ℚ) ≤ 336)
      have heq : (w : ℚ) / 2 / 2 * 60 = ((15 * (w : ℤ) : ℤ) : ℚ) := by
        push_cast; ring
      rw [heq, Int.floor_intCast]
      omega

theorem half_window_minutes_pos (w : ℕ) : 0 < half_window_minutes w := by
  rw [half_window_minutes_eq]; omega

/-- C1.  For every render width `w`, the visible window size in hours equals
`clamp(w / 2.0, 48.0, 168.0)`; the value for width 80 is 48, for width 200 is
100, for width 2000 is 168, and for every width the result lies between 48 and
168 inclusive. -/
theorem get_timeline_hours_clamped :
    (∀ w : ℕ, get_timeline_hours w = clampQ ((w : ℚ) / 2) 48 168) ∧
    (∀ w : ℕ, 48 ≤ get_timeline_hours w ∧ get_timeline_hours w ≤ 168) ∧
    get_timeline_hours 80 = 48 ∧
    get_timeline_hours 200 = 100 ∧
    get_timeline_hours 2000 = 168 := by
  refine ⟨fun w => rfl, fun w => ?_, ?_, ?_, ?_⟩
  · unfold get_timeline_hours clampQ
    split_ifs with h1 h2 <;> constructor <;> linarith
  · norm_num [get_timeline_hours, clampQ]
  · norm_num [get_timeline_hours, clampQ]
  · norm_num [get_timeline_hours, clampQ]

theorem roundHalfAway_mono {q1 q2 : ℚ} (h : q1 ≤ q2) :
    roundHalfAway q1 ≤ roundHalfAway q2 := by
  unfold roundHalfAway
  rcases le_or_lt 0 q1 with h1 | h1 <;> rcases le_or_lt 0 q2 with h2 | h2
  · rw [if_pos h1, if_pos h2]
    exact Int.floor_le_floor (by linarith)
  · linarith
  · rw [if_neg (not_le.mpr h1), if_pos h2]
    have hc : Int.ceil (q1 - 1/2) ≤ 0 := by
      rw [Int.ceil_le]; push_cast; linarith
    have hf : (0 : ℤ) ≤ Int.floor (q2 + 1/2) := by
      rw [Int.le_floor]; push_cast; linarith
    omega
  · rw [if_neg (not_le.mpr h1), if_neg (not_le.mpr h2)]
    exact Int.ceil_le_ceil (by linarith)

theorem castU16_mono {z1 z2 : ℤ} (h : z1 ≤ z2) : castU16 z1 ≤ castU16 z2 := by
  unfold castU16
  apply Int.toNat_le_toNat
  exact min_le_min (max_le_max h le_rfl) le_rfl

/-- Unfolding of `time_to_position` when the window is nondegenerate (it always
is: the half window is at least 1440 minutes). -/
theorem time_to_position_eq (pos : ℤ) (width : ℕ) (time : ℤ) :
    time_to_position pos width time =
      min (castU16 (roundHalfAway
            (((time - get_timeline_start pos width : ℤ) : ℚ) /
                ((120 * half_window_minutes width : ℤ) : ℚ) * (width : ℚ))))
        (width - 1) := by
  have hm := half_window_minutes_pos width
  have htot : get_timeline_end pos width - get_timeline_start pos width =
      120 * half_window_minutes width := by
    unfold get_timeline_end get_timeline_start; ring
  simp only [time_to_position]
  rw [htot, if_neg (by positivity)]

/-- C2.  For every window derived from a scrub instant and a width
`1 ≤ w ≤ 65535` (the `u16` range), the instant-to-column map is monotone
nondecreasing, sends the window start to column 0, never exceeds `w - 1`, and
sends the window end to `w - 1`. -/
theorem time_to_position_spec (pos : ℤ) (width : ℕ)
    (h1 : 1 ≤ width) (h2 : width ≤ 65535) :
    (∀ t1 t2 : ℤ, t1 ≤ t2 →
        time_to_position pos width t1 ≤ time_to_position pos width t2) ∧
    time_to_position pos width (get_timeline_start pos width) = 0 ∧
    (∀ t : ℤ, time_to_position pos width t ≤ width - 1) ∧
    time_to_position pos width (get_timeline_end pos width) = width - 1 := by
  have hm := half_window_minutes_pos width
  have hT : (0 : ℚ) < ((120 * half_window_minutes width : ℤ) : ℚ) := by
    have : (0 : ℤ) < 120 * half_window_minutes width := by positivity
    exact_mod_cast this
  refine ⟨?_, ?_, ?_, ?_⟩
  · intro t1 t2 ht
    rw [time_to_position_eq, time_to_position_eq]
    refine min_le_min (castU16_mono (roundHalfAway_mono ?_)) le_rfl
    have hnum : ((t1 - get_timeline_start pos width : ℤ) : ℚ) ≤
        ((t2 - get_timeline_start pos width : ℤ) : ℚ) := by
      exact_mod_cast sub_le_sub_right ht _
    gcongr
  · rw [time_to_position_eq]
    have : ((get_timeline_start pos width - get_timeline_start pos width : ℤ) : ℚ) = 0 := by
      push_cast; ring
    rw [this, zero_div, zero_mul]
    have hr : roundHalfAway 0 = 0 := by
      unfold roundHalfAway
      rw [if_pos le_rfl]
      norm_num
    rw [hr]
    simp [castU16]
  · intro t
    rw [time_to_position_eq]
    exact min_le_right _ _
  · rw [time_to_position_eq]
    have hTne : ((120 * half_window_minutes width : ℤ) : ℚ) ≠ 0 := ne_of_gt hT
    have : ((get_timeline_end pos width - get_timeline_start pos width : ℤ) : ℚ) =
        ((120 * half_window_minutes width : ℤ) : ℚ) := by
      unfold get_timeline_end get_timeline_start
      push_cast; ring
    rw [this, div_self hTne, one_mul]
    have hr : roundHalfAway (width : ℚ) = (width : ℤ) := by
      unfold roundHalfAway
      rw [if_pos (by positivity)]
      rw [Int.floor_eq_iff]
      constructor
      · push_cast; linarith
      · push_cast; linarith
    rw [hr]
    have hc : castU16 (width : ℤ) = width := by
      unfold castU16
      rw [max_eq_left (by positivity), min_eq_left (by exact_mod_cast h2)]
      exact Int.toNat_natCast width
    rw [hc]
    omega

/-- Witness for C2 at a concrete input: scrub instant 0, width 80. -/
theorem time_to_position_spec_witness :
    time_to_position 0 80 (get_timeline_start 0 80) = 0 ∧
    time_to_position 0 80 (get_timeline_end 0 80) = 79 :=
  ⟨(time_to_position_spec 0 80 (by norm_num) (by norm_num)).2.1,
   (time_to_position_spec 0 80 (by norm_num) (by norm_num)).2.2.2⟩

/-! ## DST transition scanning (`src/ui/timeline.rs`)

The `chrono-tz` database is abstracted as a function `o : ℤ → ℤ` giving the
zone's fixed UTC offset in seconds at a UTC instant, modelling
`utc_time.with_timezone(&tz).offset().fix().local_minus_utc()`. -/

/-- `DstTransition` (timeline.rs:28-32). -/
inductive DstTransition
  | SpringForward
  | FallBack
deriving DecidableEq

/-- `TimelineWidget::detect_dst_transition` (timeline.rs:114-133): compare the
offset at `utc_time` with the offset one hour later. -/
def detect_dst_transition (o : ℤ → ℤ) (utc_time : ℤ) : Option DstTransition :=
  let offset_before := o utc_time
  let offset_after := o (utc_time + 3600)
  if offset_after > offset_before then some DstTransition.FallBack
  else if offset_after < offset_before then some DstTransition.SpringForward
  else none

/-- The `while current < end` loop of `get_dst_transitions_in_range`
(timeline.rs:140-147), written with explicit fuel.  The loop body only runs
while `current < e`, so any fuel at least the number of iterations gives the
loop's exact behaviour. -/
def dst_scan (o : ℤ → ℤ) (e : ℤ) : ℕ → ℤ → List (ℤ × DstTransition)
  | 0, _ => []
  | n + 1, current =>
    if current < e then
      (match detect_dst_transition o current with
        | some transition => [(current, transition)]
        | none => []) ++ dst_scan o e n (current + 3600)
    else []

/-- `TimelineWidget::get_dst_transitions_in_range` (timeline.rs:135-150).
The loop makes strictly fewer than `(e - start).toNat` iterations because the
cursor advances by 3600 seconds each time. -/
def get_dst_transitions_in_range (o : ℤ → ℤ) (pos : ℤ) (width : ℕ) :
    List (ℤ × DstTransition) :=
  let start := get_timeline_start pos width
  let e := get_timeline_end pos width
  dst_scan o e (e - start).toNat start

theorem detect_dst_transition_fall (o : ℤ → ℤ) (t : ℤ) :
    detect_dst_transition o t = some DstTransition.FallBack ↔ o t < o (t + 3600) := by
  simp only [detect_dst_transition]
  split_ifs with h1 h2 <;> simp <;> omega

theorem detect_dst_transition_spring (o : ℤ → ℤ) (t : ℤ) :
    detect_dst_transition o t = some DstTransition.SpringForward ↔ o (t + 3600) < o t := by
  simp only [detect_dst_transition]
  split_ifs with h1 h2 <;> simp <;> omega

theorem detect_dst_transition_none (o : ℤ → ℤ) (t : ℤ) :
    detect_dst_transition o t = none ↔ o (t + 3600) = o t := by
  simp only [detect_dst_transition]
  split_ifs with h1 h2 <;> simp <;> omega

theorem mem_dst_scan (o : ℤ → ℤ) (e : ℤ) :
    ∀ (n : ℕ) (cur t : ℤ) (tr : DstTransition),
      (t, tr) ∈ dst_scan o e n cur ↔
        ∃ k : ℕ, k < n ∧ t = cur + 3600 * k ∧ t < e ∧
          detect_dst_transition o t = some tr := by
  intro n
  induction n with
  | zero => intro cur t tr; simp [dst_scan]
  | succ n ih =>
    intro cur t tr
    unfold dst_scan
    by_cases hc : cur < e
    · rw [if_pos hc]
      rw [List.mem_append, ih]
      constructor
      · rintro (hin | ⟨k, hk, hts, hlt, hdet⟩)
        · rcases hdet : detect_dst_transition o cur with _ | tr0 <;>
            rw [hdet] at hin <;> simp at hin
          obtain ⟨ht, htr⟩ := hin
          exact ⟨0, Nat.succ_pos n, by omega, by omega, by rw [ht, hdet, htr]⟩
        · exact ⟨k + 1, by omega, by push_cast; omega, hlt, hdet⟩
      · rintro ⟨k, hk, hts, hlt, hdet⟩
        cases k with
        | zero =>
          left
          have ht : t = cur := by omega
          rw [ht] at hdet ⊢
          rw [hdet]
          simp
        | succ k =>
          right
          exact ⟨k, by omega, by push_cast at hts ⊢; omega, hlt, hdet⟩
    · rw [if_neg hc]
      simp only [List.not_mem_nil, false_iff]
      rintro ⟨k, _, hts, hlt, _⟩
      have : (0 : ℤ) ≤ 3600 * k := by positivity
      omega

/-- C3.  For every hour step `h = start + 3600·k` with `h < end`, the scanner
emits an event at `h` exactly when the offset at `h` differs from the offset
at `h + 1h`: `FallBack` when the later offset is greater, `SpringForward`
when it is smaller, nothing when they are equal; and every emitted event lies
on such an hour step inside `[start, end)`. -/
theorem get_dst_transitions_in_range_spec (o : ℤ → ℤ) (pos : ℤ) (width : ℕ) :
    (∀ (k : ℕ) (t : ℤ), t = get_timeline_start pos width + 3600 * k →
      t < get_timeline_end pos width →
      (((t, DstTransition.FallBack) ∈ get_dst_transitions_in_range o pos width) ↔
        o t < o (t + 3600)) ∧
      (((t, DstTransition.SpringForward) ∈ get_dst_transitions_in_range o pos width) ↔
        o (t + 3600) < o t) ∧
      (o (t + 3600) = o t →
        ∀ tr : DstTransition, (t, tr) ∉ get_dst_transitions_in_range o pos width)) ∧
    (∀ (t : ℤ) (tr : DstTransition), (t, tr) ∈ get_dst_transitions_in_range o pos width →
      ∃ k : ℕ, t = get_timeline_start pos width + 3600 * k ∧
        get_timeline_start pos width ≤ t ∧ t < get_timeline_end pos width) := by
  have hm := half_window_minutes_pos width
  have hse : get_timeline_start pos width < get_timeline_end pos width := by
    unfold get_timeline_start get_timeline_end; omega
  constructor
  · intro k t htk hlt
    have hkfuel : k < (get_timeline_end pos width - get_timeline_start pos width).toNat := by
      have h36 : (k : ℤ) ≤ 3600 * k := by nlinarith [Int.natCast_nonneg k]
      omega
    refine ⟨?_, ?_, ?_⟩
    · rw [get_dst_transitions_in_range, mem_dst_scan, ← detect_dst_transition_fall]
      constructor
      · rintro ⟨k', _, _, _, hdet⟩; exact hdet
      · intro hdet; exact ⟨k, hkfuel, htk, hlt, hdet⟩
    · rw [get_dst_transitions_in_range, mem_dst_scan, ← detect_dst_transition_spring]
      constructor
      · rintro ⟨k', _, _, _, hdet⟩; exact hdet
      · intro hdet; exact ⟨k, hkfuel, htk, hlt, hdet⟩
    · intro heq tr
      rw [get_dst_transitions_in_range, mem_dst_scan]
      rintro ⟨k', _, _, _, hdet⟩
      rw [(detect_dst_transition_none o t).mpr heq] at hdet
      exact Option.noConfusion hdet
  · intro t tr hmem
    rw [get_dst_transitions_in_range, mem_dst_scan] at hmem
    obtain ⟨k, _, hts, hlt, _⟩ := hmem
    have : (0 : ℤ) ≤ 3600 * k := by positivity
    exact ⟨k, hts, by omega, hlt⟩

/-- Witness for C3 at a concrete input: a zone whose offset steps from 0 to
3600 at instant 3600, scanned over the width-80 window centred at 86400
(so the window is `[0, 172800)`): the scanner reports a `FallBack` at 0. -/
theorem get_dst_transitions_in_range_spec_witness :
    (0, DstTransition.FallBack) ∈
      get_dst_transitions_in_range (fun t => if t < 3600 then 0 else 3600) 86400 80 :=
  (((get_dst_transitions_in_range_spec (fun t => if t < 3600 then 0 else 3600) 86400 80).1
      0 0 (by simp [get_timeline_start, half_window_minutes_eq])
      (by simp [get_timeline_end, half_window_minutes_eq])).1).mpr
    (by norm_num)

/-! ## Midnight markers (`src/ui/timeline.rs`)

Local civil datetimes are seconds (`ℤ`); the calendar date of a local
datetime is `Int.fdiv · 86400` (days since the epoch, floor division, as in
`date_naive`), and its time-of-day is `Int.emod · 86400`.  A zone is a pair
of functions: `o` as for the DST scanner, and
`single : ℤ → Option ℤ` modelling
`tz.from_local_datetime(&naive).single()` followed by
`.with_timezone(&Utc)`: the unique UTC instant of a local civil datetime, or
`none` when the local time is ambiguous or nonexistent (DST fold/gap). -/

/-- The list `d, d + 1, ..., last` of calendar dates, via a fuel recursion of
`(last - d + 1).toNat` steps. -/
def int_range_fuel : ℕ → ℤ → List ℤ
  | 0, _ => []
  | n + 1, d => d :: int_range_fuel n (d + 1)

/-- The list `d, d + 1, ..., last` of calendar dates. -/
def int_range (d last : ℤ) : List ℤ := int_range_fuel (last - d + 1).toNat d

/-- The body of the midnight loop for one date `d` (timeline.rs:171-186):
resolve local midnight `d` at 00:00:00 via `single`, keep the result when it
lies within `[start, e]`. -/
def midnight_marker_for (single : ℤ → Option ℤ) (start e d : ℤ) : Option ℤ :=
  match single (d * 86400) with
  | some u => if start ≤ u ∧ u ≤ e then some u else none
  | none => none

/-- The `while current_date <= local_end.date_naive()` loop of
`get_midnight_markers_in_range` (timeline.rs:170-188), with explicit fuel. -/
def midnight_scan (single : ℤ → Option ℤ) (start e last : ℤ) :
    ℕ → ℤ → List ℤ
  | 0, _ => []
  | n + 1, d =>
    if d ≤ last then
      (match single (d * 86400) with
        | some u => if start ≤ u ∧ u ≤ e then [u] else []
        | none => []) ++ midnight_scan single start e last n (d + 1)
    else []

/-- The first scanned date (timeline.rs:161-167): the local date of the window
start, advanced by one day when the window start is not exactly at local
midnight. -/
def first_scan_date (o : ℤ → ℤ) (pos : ℤ) (width : ℕ) : ℤ :=
  let local_start := get_timeline_start pos width + o (get_timeline_start pos width)
  if local_start.emod 86400 = 0 then local_start.fdiv 86400
  else local_start.fdiv 86400 + 1

/-- The last scanned date (timeline.rs:170): the local date of the window
end. -/
def last_scan_date (o : ℤ → ℤ) (pos : ℤ) (width : ℕ) : ℤ :=
  (get_timeline_end pos width + o (get_timeline_end pos width)).fdiv 86400

/-- `TimelineWidget::get_midnight_markers_in_range` (timeline.rs:152-191). -/
def get_midnight_markers_in_range (o : ℤ → ℤ) (single : ℤ → Option ℤ)
    (pos : ℤ) (width : ℕ) : List ℤ :=
  let start := get_timeline_start pos width
  let e := get_timeline_end pos width
  let first := first_scan_date o pos width
  let last := last_scan_date o pos width
  midnight_scan single start e last (last - first + 1).toNat first

theorem int_range_cons {d last : ℤ} (h : d ≤ last) :
    int_range d last = d :: int_range (d + 1) last := by
  unfold int_range
  have hn : (last - d + 1).toNat = (last - (d + 1) + 1).toNat + 1 := by omega
  rw [hn]
  rfl

theorem int_range_nil {d last : ℤ} (h : last < d) : int_range d last = [] := by
  unfold int_range
  have : (last - d + 1).toNat = 0 := by omega
  rw [this]
  rfl

theorem mem_int_range_fuel :
    ∀ (n : ℕ) (d x : ℤ), x ∈ int_range_fuel n d ↔ d ≤ x ∧ x < d + n := by
  intro n
  induction n with
  | zero =>
    intro d x
    simp [int_range_fuel]
  | succ n ih =>
    intro d x
    simp only [int_range_fuel, List.mem_cons, ih]
    omega

theorem mem_int_range {d last d0 : ℤ} :
    d0 ∈ int_range d last ↔ d ≤ d0 ∧ d0 ≤ last := by
  unfold int_range
  rw [mem_int_range_fuel]
  omega

theorem midnight_scan_eq (single : ℤ → Option ℤ) (start e last : ℤ) :
    ∀ (n : ℕ) (d : ℤ), (last - d + 1).toNat ≤ n →
      midnight_scan single start e last n d =
        (int_range d last).filterMap (midnight_marker_for single start e) := by
  intro n
  induction n with
  | zero =>
    intro d hn
    rw [int_range_nil (by omega)]
    rfl
  | succ n ih =>
    intro d hn
    by_cases hd : d ≤ last
    · rw [int_range_cons hd]
      unfold midnight_scan
      rw [if_pos hd, List.filterMap_cons, ih (d + 1) (by omega)]
      rcases hs : single (d * 86400) with _ | u <;>
        simp only [midnight_marker_for, hs]
      · rfl
      · by_cases hin : start ≤ u ∧ u ≤ e
        · rw [if_pos hin, if_pos hin]
          rfl
        · rw [if_neg hin, if_neg hin]
          rfl
    · unfold midnight_scan
      rw [if_neg hd, int_range_nil (by omega)]
      rfl

/-- C4.  The midnight-marker computation is exactly the `filterMap`, over the
scanned local dates, of the total resolver `midnight_marker_for`: a date whose
local midnight is ambiguous or nonexistent (`single` returns `none`) is
silently skipped, while every other scanned date whose unique UTC midnight
falls within the window contributes its marker; no error value exists. -/
theorem get_midnight_markers_in_range_spec (o : ℤ → ℤ) (single : ℤ → Option ℤ)
    (pos : ℤ) (width : ℕ) :
    get_midnight_markers_in_range o single pos width =
      (int_range (first_scan_date o pos width) (last_scan_date o pos width)).filterMap
        (midnight_marker_for single (get_timeline_start pos width)
          (get_timeline_end pos width)) ∧
    (∀ u : ℤ, u ∈ get_midnight_markers_in_range o single pos width ↔
      ∃ d : ℤ, first_scan_date o pos width ≤ d ∧ d ≤ last_scan_date o pos width ∧
        single (d * 86400) = some u ∧
        get_timeline_start pos width ≤ u ∧ u ≤ get_timeline_end pos width) := by
  have heq := midnight_scan_eq single (get_timeline_start pos width)
    (get_timeline_end pos width) (last_scan_date o pos width)
    (last_scan_date o pos width - first_scan_date o pos width + 1).toNat
    (first_scan_date o pos width) le_rfl
  constructor
  · exact heq
  · intro u
    rw [get_midnight_markers_in_range]
    rw [heq, List.mem_filterMap]
    constructor
    · rintro ⟨d, hd, hf⟩
      rw [mem_int_range] at hd
      rcases hs : single (d * 86400) with _ | u0
      · simp only [midnight_marker_for, hs] at hf
        exact absurd hf (by simp)
      · simp only [midnight_marker_for, hs] at hf
        by_cases hin : get_timeline_start pos width ≤ u0 ∧ u0 ≤ get_timeline_end pos width
        · rw [if_pos hin] at hf
          obtain rfl : u0 = u := by injection hf
          exact ⟨d, hd.1, hd.2, hs, hin.1, hin.2⟩
        · rw [if_neg hin] at hf
          exact absurd hf (by simp)
    · rintro ⟨d, h1, h2, hs, h3, h4⟩
      refine ⟨d, mem_int_range.mpr ⟨h1, h2⟩, ?_⟩
      simp only [midnight_marker_for, hs]
      rw [if_pos (And.intro h3 h4)]

/-! ## Timezone registry (`src/time.rs`)

`chrono_tz::Tz` values are IANA id strings.  `Tz::from_str` is abstracted as
a validity predicate `valid : String → Bool` (parsing succeeds exactly on
valid ids and returns the id itself).  Current wall-clock data is derived
from a session instant `now : ℤ` (the `Utc::now()` of the call) and an offset
table `off : String → ℤ` giving each zone id's current UTC offset in seconds
(`now.with_timezone(&tz).offset().fix().local_minus_utc()`). -/

/-- `CityData` (time.rs:7-15). -/
structure CityData where
  name : String
  code : String
  timezone : String
  country : String
  coordinates : ℚ × ℚ
  aliases : List String
deriving DecidableEq

/-- `CitiesData` (time.rs:17-21). -/
structure CitiesData where
  cities : List CityData
  major_cities : List String
deriving DecidableEq

/-- `TimeZone` (time.rs:23-28). -/
structure TimeZone where
  tz : String
  display_name : String
  cities : List String
deriving DecidableEq

/-- `TimeZone::add_city` (time.rs:70-74): push the city name unless already
present. -/
def TimeZone.add_city (z : TimeZone) (city : String) : TimeZone :=
  if city ∈ z.cities then z else { z with cities := z.cities ++ [city] }

/-- `TimeZone::utc_offset_hours` (time.rs:143-147): the current offset in
seconds divided by 3600 with Rust `i32` division, which truncates toward
zero. -/
def utc_offset_hours (off : String → ℤ) (z : TimeZone) : ℤ :=
  Int.tdiv (off z.tz) 3600

/-- The comparison underlying `sort_by_key(|tz| tz.utc_offset_hours())`. -/
def offsetLe (off : String → ℤ) (a b : TimeZone) : Prop :=
  utc_offset_hours off a ≤ utc_offset_hours off b

instance (off : String → ℤ) : DecidableRel (offsetLe off) := fun a b =>
  inferInstanceAs (Decidable (utc_offset_hours off a ≤ utc_offset_hours off b))

instance (off : String → ℤ) : IsTotal TimeZone (offsetLe off) :=
  ⟨fun a b => le_total (utc_offset_hours off a) (utc_offset_hours off b)⟩

instance (off : String → ℤ) : IsTrans TimeZone (offsetLe off) :=
  ⟨fun _ _ _ => le_trans⟩

/-- `TimeZoneManager::add_zone` (time.rs:365-369): push, then re-sort stably
by current offset hours (`Vec::sort_by_key` is stable; a stable sort over a
total preorder is unique, here `List.insertionSort`). -/
def add_zone (off : String → ℤ) (zones : List TimeZone) (timezone : TimeZone) :
    List TimeZone :=
  (zones ++ [timezone]).insertionSort (offsetLe off)

/-- `TimeZoneManager::remove_zone` (time.rs:371-377): remove and return the
entry at `index`, or `none` (registry unchanged) when out of range. -/
def remove_zone (zones : List TimeZone) (index : ℕ) :
    Option TimeZone × List TimeZone :=
  if index < zones.length then (zones[index]?, zones.eraseIdx index)
  else (none, zones)

/-- Local hour at instant `now` in a zone with current offset `offsec`
(chrono `Timelike::hour` of `now.with_timezone(&tz)`). -/
def local_hour (now offsec : ℤ) : ℤ := ((now + offsec).emod 86400).ediv 3600

/-- Local minute at instant `now` in a zone with current offset `offsec`. -/
def local_minute (now offsec : ℤ) : ℤ := ((now + offsec).emod 3600).ediv 60

/-- The merge-by-current-time test (time.rs:308-310 and 403-407): equal local
hour, equal local minute, equal current UTC offset. -/
def same_current_time (now : ℤ) (off : String → ℤ) (t1 t2 : String) : Bool :=
  local_hour now (off t1) == local_hour now (off t2) &&
  local_minute now (off t1) == local_minute now (off t2) &&
  off t1 == off t2

/-- Rust `str::eq_ignore_ascii_case`, via ASCII lowercasing. -/
def lower_char (c : Char) : Char :=
  if 65 ≤ c.toNat ∧ c.toNat ≤ 90 then Char.ofNat (c.toNat + 32) else c

/-- ASCII lowercase of a string (also models `str::to_lowercase`, whose
non-ASCII behaviour is irrelevant to the embedded data). -/
def lower_string (s : String) : String := ⟨s.data.map lower_char⟩

def eq_ignore_ascii_case (a b : String) : Bool := lower_string a == lower_string b

/-- The `iter_mut().find(..)`-and-mutate idiom: apply `f` to the first element
satisfying `p`, keep the rest unchanged. -/
def update_first (p : TimeZone → Bool) (f : TimeZone → TimeZone) :
    List TimeZone → List TimeZone
  | [] => []
  | z :: zs => if p z then f z :: zs else z :: update_first p f zs

/-- `TimeZoneManager::add_timezone_by_name_with_merging` (time.rs:287-326).
Returns the `bool` result and the updated zone list. -/
def add_timezone_by_name_with_merging (cat : CitiesData) (valid : String → Bool)
    (now : ℤ) (off : String → ℤ) (zones : List TimeZone) (name : String)
    (merge_same_time : Bool) : Bool × List TimeZone :=
  match cat.cities.find? (fun c => eq_ignore_ascii_case c.name name) with
  | none => (false, zones)
  | some city =>
    if valid city.timezone then
      if zones.any (fun z => z.tz == city.timezone) then
        (true, update_first (fun z => z.tz == city.timezone)
          (fun z => z.add_city city.name) zones)
      else if merge_same_time &&
          zones.any (fun z => same_current_time now off city.timezone z.tz) then
        (true, update_first (fun z => same_current_time now off city.timezone z.tz)
          (fun z => z.add_city city.name) zones)
      else
        (true, add_zone off zones
          (TimeZone.add_city ⟨city.timezone, city.code, []⟩ city.name))
    else (false, zones)

/-- One step of the merge loop of `reorganize_zones_for_merge(true)`
(time.rs:393-417): coalesce `zone` into the first entry with the same tz,
else the first entry with the same current time, else push it. -/
def merge_step (now : ℤ) (off : String → ℤ) (acc : List TimeZone)
    (zone : TimeZone) : List TimeZone :=
  if acc.any (fun ex => ex.tz == zone.tz) then
    update_first (fun ex => ex.tz == zone.tz)
      (fun ex => zone.cities.foldl TimeZone.add_city ex) acc
  else if acc.any (fun ex => same_current_time now off zone.tz ex.tz) then
    update_first (fun ex => same_current_time now off zone.tz ex.tz)
      (fun ex => zone.cities.foldl TimeZone.add_city ex) acc
  else acc ++ [zone]

/-- The inner per-city step of the split loop (time.rs:430-443): look the
city up in the catalog, parse its timezone, and either merge it into an
already-created entry with that timezone or create a fresh entry. -/
def split_city_step (cat : CitiesData) (valid : String → Bool)
    (acc2 : List TimeZone) (city : String) : List TimeZone :=
  match cat.cities.find? (fun c => c.name == city) with
  | some city_data =>
    if valid city_data.timezone then
      if acc2.any (fun z => z.tz == city_data.timezone) then
        update_first (fun z => z.tz == city_data.timezone)
          (fun z => z.add_city city) acc2
      else acc2 ++ [TimeZone.add_city ⟨city_data.timezone, city_data.code, []⟩ city]
    else acc2
  | none => acc2

/-- One step of the split loop of `reorganize_zones_for_merge(false)`
(time.rs:424-446): keep single-city entries; split a multi-city entry into
one entry per member city's catalog timezone. -/
def split_step (cat : CitiesData) (valid : String → Bool)
    (acc : List TimeZone) (zone : TimeZone) : List TimeZone :=
  if zone.cities.length ≤ 1 then acc ++ [zone]
  else zone.cities.foldl (split_city_step cat valid) acc

/-- `TimeZoneManager::reorganize_zones_for_merge` (time.rs:387-453). -/
def reorganize_zones_for_merge (cat : CitiesData) (valid : String → Bool)
    (now : ℤ) (off : String → ℤ) (zones : List TimeZone)
    (merge_same_time : Bool) : List TimeZone :=
  if merge_same_time then
    (zones.foldl (merge_step now off) []).insertionSort (offsetLe off)
  else
    (zones.foldl (split_step cat valid) []).insertionSort (offsetLe off)

/-- C10.  The per-entry current offset in hours is the offset in seconds
`i32`-divided by 3600, truncating toward zero, so fractional-hour zones
(+5:30, +5:45, −9:30) report only the whole-hour part; and this truncated
value is the key `add_zone` sorts by: two zones with keys tied at 5 keep
insertion order even when their true offsets (+5:45 before +5:30) are out of
order, so the key is not the true offset. -/
theorem utc_offset_hours_spec :
    (∀ (off : String → ℤ) (z : TimeZone),
      utc_offset_hours off z = Int.tdiv (off z.tz) 3600) ∧
    utc_offset_hours (fun _ => 19800) ⟨"Asia/Kolkata", "DEL", []⟩ = 5 ∧
    utc_offset_hours (fun _ => 20700) ⟨"Asia/Kathmandu", "KTM", []⟩ = 5 ∧
    utc_offset_hours (fun _ => -34200) ⟨"Pacific/Marquesas", "NHV", []⟩ = -9 ∧
    add_zone (fun t => if t = "KTM" then 20700 else 19800)
        [⟨"KTM", "KTM", []⟩] ⟨"DEL", "DEL", []⟩ =
      [⟨"KTM", "KTM", []⟩, ⟨"DEL", "DEL", []⟩] ∧
    (fun t : String => if t = "KTM" then (20700 : ℤ) else 19800) "KTM" >
      (fun t : String => if t = "KTM" then (20700 : ℤ) else 19800) "DEL" := by
  refine ⟨fun off z => rfl, by decide, by decide, by decide, by decide, by decide⟩

/-- Stability of the registry sort: the entries whose current offset hours
equal any fixed value `k` appear in the sorted output in exactly the order
they had in the input. -/
theorem insertionSort_filter_ties (off : String → ℤ) (k : ℤ) (l : List TimeZone) :
    (l.insertionSort (offsetLe off)).filter (fun x => utc_offset_hours off x == k) =
      l.filter (fun x => utc_offset_hours off x == k) := by
  set p : TimeZone → Bool := fun x => utc_offset_hours off x == k with hp
  have hmem : ∀ a, p a = true → utc_offset_hours off a = k := by
    intro a ha
    rw [hp] at ha
    exact eq_of_beq ha
  have h1 : (l.filter p).Pairwise (offsetLe off) := by
    apply List.pairwise_of_forall_mem_list
    intro a ha b hb
    have ha' := hmem a (List.of_mem_filter ha)
    have hb' := hmem b (List.of_mem_filter hb)
    show utc_offset_hours off a ≤ utc_offset_hours off b
    rw [ha', hb']
  have h2 : (l.filter p).Sublist (l.insertionSort (offsetLe off)) :=
    List.sublist_insertionSort h1 (List.filter_sublist l)
  have h4 := List.Sublist.filter p h2
  have h5 : (l.filter p).filter p = l.filter p :=
    List.filter_eq_self.mpr fun a ha => List.of_mem_filter ha
  rw [h5] at h4
  have hlen : ((l.insertionSort (offsetLe off)).filter p).length = (l.filter p).length := by
    rw [← List.countP_eq_length_filter, ← List.countP_eq_length_filter]
    exact (List.perm_insertionSort (offsetLe off) l).countP_eq p
  exact (h4.eq_of_length hlen.symm).symm

/-- C6.  After each registry mutation the entry sequence is sorted ascending
by the current offset-hours key, and ties are stable: `add_zone` re-sorts the
pushed sequence keeping equal-key entries in their prior order; `remove_zone`
keeps a sorted registry sorted and preserves the relative order of the
remaining entries (it is a sublist); both reorganizations re-sort their
rebuilt entry list stably. -/
theorem registry_sorted_after_mutation (cat : CitiesData) (valid : String → Bool)
    (now : ℤ) (off : String → ℤ) :
    (∀ (zones : List TimeZone) (z : TimeZone),
      List.Sorted (offsetLe off) (add_zone off zones z) ∧
      ∀ k : ℤ, (add_zone off zones z).filter (fun x => utc_offset_hours off x == k) =
        (zones ++ [z]).filter (fun x => utc_offset_hours off x == k)) ∧
    (∀ (zones : List TimeZone) (index : ℕ), List.Sorted (offsetLe off) zones →
      List.Sorted (offsetLe off) (remove_zone zones index).2 ∧
      (remove_zone zones index).2.Sublist zones) ∧
    (∀ (zones : List TimeZone) (b : Bool),
      List.Sorted (offsetLe off) (reorganize_zones_for_merge cat valid now off zones b) ∧
      ∀ k : ℤ, (reorganize_zones_for_merge cat valid now off zones b).filter
          (fun x => utc_offset_hours off x == k) =
        (zones.foldl (if b then merge_step now off else split_step cat valid) []).filter
          (fun x => utc_offset_hours off x == k)) := by
  refine ⟨fun zones z => ⟨?_, fun k => ?_⟩, fun zones index hs => ⟨?_, ?_⟩,
    fun zones b => ⟨?_, fun k => ?_⟩⟩
  · exact List.sorted_insertionSort (offsetLe off) _
  · exact insertionSort_filter_ties off k _
  · unfold remove_zone
    split_ifs with h
    · exact List.Pairwise.sublist (List.eraseIdx_sublist zones index) hs
    · exact hs
  · unfold remove_zone
    split_ifs with h
    · exact List.eraseIdx_sublist zones index
    · exact List.Sublist.refl zones
  · unfold reorganize_zones_for_merge
    split_ifs with h <;> exact List.sorted_insertionSort (offsetLe off) _
  · unfold reorganize_zones_for_merge
    cases b with
    | false => simp only [if_neg Bool.false_ne_true, Bool.false_eq_true, if_false]
               exact insertionSort_filter_ties off k _
    | true => simp only [if_pos rfl]
              exact insertionSort_filter_ties off k _

/-! ### Helper lemmas about `update_first` and `add_city` -/

theorem add_city_tz (z : TimeZone) (c : String) : (z.add_city c).tz = z.tz := by
  unfold TimeZone.add_city
  split_ifs <;> rfl

theorem add_city_of_not_mem {z : TimeZone} {c : String} (h : c ∉ z.cities) :
    z.add_city c = { z with cities := z.cities ++ [c] } := by
  unfold TimeZone.add_city
  rw [if_neg h]

theorem update_first_map_tz (p : TimeZone → Bool) (f : TimeZone → TimeZone)
    (hf : ∀ z, (f z).tz = z.tz) :
    ∀ zs : List TimeZone, (update_first p f zs).map TimeZone.tz = zs.map TimeZone.tz := by
  intro zs
  induction zs with
  | nil => rfl
  | cons z rest ih =>
    unfold update_first
    split_ifs with h
    · simp [hf z]
    · simp [ih]

theorem update_first_cons (p : TimeZone → Bool) (f : TimeZone → TimeZone)
    (z : TimeZone) (zs : List TimeZone) :
    update_first p f (z :: zs) =
      if p z then f z :: zs else z :: update_first p f zs := rfl

theorem update_first_comp (p : TimeZone → Bool) (f g : TimeZone → TimeZone)
    (hpg : ∀ z, p (g z) = p z) :
    ∀ zs : List TimeZone,
      update_first p f (update_first p g zs) = update_first p (fun z => f (g z)) zs := by
  intro zs
  induction zs with
  | nil => rfl
  | cons z rest ih =>
    by_cases h : p z = true
    · simp [update_first_cons, hpg, h]
    · simp [update_first_cons, hpg, h, ih]

theorem update_first_decomp (p : TimeZone → Bool) (f : TimeZone → TimeZone) :
    ∀ {zs : List TimeZone}, zs.any p = true →
      ∃ pre z post, zs = pre ++ z :: post ∧ (∀ x ∈ pre, p x = false) ∧
        p z = true ∧ update_first p f zs = pre ++ f z :: post := by
  intro zs
  induction zs with
  | nil => intro h; simp at h
  | cons z rest ih =>
    intro h
    by_cases hz : p z = true
    · exact ⟨[], z, rest, rfl, by simp, hz,
        by rw [update_first_cons, if_pos hz]; rfl⟩
    · have hrest : rest.any p = true := by
        rcases List.any_eq_true.mp h with ⟨x, hx, hpx⟩
        rcases List.mem_cons.mp hx with hx | hx
        · exact absurd (hx ▸ hpx) hz
        · exact List.any_eq_true.mpr ⟨x, hx, hpx⟩
      obtain ⟨pre, z0, post, hsplit, hpre, hz0, hupd⟩ := ih hrest
      refine ⟨z :: pre, z0, post, by rw [hsplit]; rfl, ?_, hz0, ?_⟩
      · intro x hx
        rcases List.mem_cons.mp hx with hx | hx
        · rw [hx]; exact Bool.eq_false_iff.mpr hz
        · exact hpre x hx
      · rw [update_first_cons, if_neg hz, hupd]
        rfl

theorem any_map_tz (pb : String → Bool) :
    ∀ zs : List TimeZone, zs.any (fun z => pb z.tz) = (zs.map TimeZone.tz).any pb := by
  intro zs
  induction zs with
  | nil => rfl
  | cons z rest ih => simp [List.any_cons, ih]

theorem any_of_map_tz_eq {zs1 zs2 : List TimeZone} (pb : String → Bool)
    (h : zs1.map TimeZone.tz = zs2.map TimeZone.tz) :
    zs1.any (fun z => pb z.tz) = zs2.any (fun z => pb z.tz) := by
  rw [any_map_tz, any_map_tz, h]

theorem filter_single_of_sides {pre post : List TimeZone} {upd : TimeZone}
    (pm : TimeZone → Bool) (hpre : ∀ x ∈ pre, pm x = false)
    (hpost : ∀ x ∈ post, pm x = false) (hupd : pm upd = true) :
    (pre ++ upd :: post).filter pm = [upd] := by
  rw [List.filter_append, List.filter_cons, if_pos hupd]
  rw [List.filter_eq_nil_iff.mpr (fun a ha => by rw [hpre a ha]; exact Bool.false_ne_true),
    List.filter_eq_nil_iff.mpr (fun a ha => by rw [hpost a ha]; exact Bool.false_ne_true)]
  rfl

/-- The registry after `add_timezone_by_name_with_merging` for `nameA` and
then `nameB`. -/
def add_two_cities (cat : CitiesData) (valid : String → Bool) (now : ℤ)
    (off : String → ℤ) (zs : List TimeZone) (nameA nameB : String)
    (merge : Bool) : List TimeZone :=
  (add_timezone_by_name_with_merging cat valid now off
    (add_timezone_by_name_with_merging cat valid now off zs nameA merge).2
    nameB merge).2

/-- Reduction of one `add_timezone_by_name_with_merging` call once the catalog
lookup and the timezone parse have succeeded. -/
theorem add_timezone_reduce (cat : CitiesData) (valid : String → Bool)
    (now : ℤ) (off : String → ℤ) (merge : Bool) (zs' : List TimeZone)
    (nm : String) (c : CityData)
    (hf : cat.cities.find? (fun x => eq_ignore_ascii_case x.name nm) = some c)
    (hv : valid c.timezone = true) :
    (add_timezone_by_name_with_merging cat valid now off zs' nm merge).2 =
      if zs'.any (fun z => z.tz == c.timezone) then
        update_first (fun z => z.tz == c.timezone)
          (fun z => z.add_city c.name) zs'
      else if merge && zs'.any (fun z => same_current_time now off c.timezone z.tz) then
        update_first (fun z => same_current_time now off c.timezone z.tz)
          (fun z => z.add_city c.name) zs'
      else add_zone off zs' (TimeZone.add_city ⟨c.timezone, c.code, []⟩ c.name) := by
  simp only [add_timezone_by_name_with_merging, hf, hv, if_true]
  by_cases h1 : zs'.any (fun z => z.tz == c.timezone) = true
  · rw [if_pos h1, if_pos h1]
  · rw [if_neg h1, if_neg h1]
    by_cases h2 : (merge && zs'.any
        (fun z => same_current_time now off c.timezone z.tz)) = true
    · rw [if_pos h2, if_pos h2]
    · rw [if_neg h2, if_neg h2]

/-- C5 (amended).  Adding two catalog cities that carry the same timezone id
to a registry with no duplicate timezone ids and neither city present, in
either order and under either merge policy, puts both city names into the
member list of exactly one common entry, and the registry still has no two
entries with the same timezone id; when the merge-by-current-time policy is
disabled that entry carries the cities' timezone id (under merge-by-time the
absorbing entry may carry a different timezone id). -/
theorem add_same_timezone_cities (cat : CitiesData) (valid : String → Bool)
    (now : ℤ) (off : String → ℤ) (zs : List TimeZone) (nameA nameB : String)
    (cA cB : CityData) (merge : Bool)
    (hfA : cat.cities.find? (fun x => eq_ignore_ascii_case x.name nameA) = some cA)
    (hfB : cat.cities.find? (fun x => eq_ignore_ascii_case x.name nameB) = some cB)
    (htz : cB.timezone = cA.timezone)
    (hvalid : valid cA.timezone = true)
    (hnames : cA.name ≠ cB.name)
    (hnodup : (zs.map TimeZone.tz).Nodup)
    (hA : ∀ z ∈ zs, cA.name ∉ z.cities)
    (hB : ∀ z ∈ zs, cB.name ∉ z.cities) :
    (∃ zc, (add_two_cities cat valid now off zs nameA nameB merge).filter
        (fun z => decide (cA.name ∈ z.cities)) = [zc] ∧
      cB.name ∈ zc.cities ∧ (merge = false → zc.tz = cA.timezone)) ∧
    ((add_two_cities cat valid now off zs nameA nameB merge).map TimeZone.tz).Nodup := by
  have hvB : valid cB.timezone = true := by rw [htz]; exact hvalid
  have htzA : ∀ z : TimeZone, ∀ n, (z.add_city n).tz = z.tz := fun z n => add_city_tz z n
  have hr1 := add_timezone_reduce cat valid now off merge zs nameA cA hfA hvalid
  have hr2gen := fun zs' => add_timezone_reduce cat valid now off merge zs' nameB cB hfB hvB
  rw [htz] at hr2gen
  by_cases hAny : zs.any (fun z => z.tz == cA.timezone) = true
  · -- both cities merge into the existing entry with their timezone id
    rw [if_pos hAny] at hr1
    have hmap1 : (update_first (fun z => z.tz == cA.timezone)
        (fun z => z.add_city cA.name) zs).map TimeZone.tz = zs.map TimeZone.tz :=
      update_first_map_tz _ _ (fun z => htzA z _) zs
    have hAny1 : (update_first (fun z => z.tz == cA.timezone)
        (fun z => z.add_city cA.name) zs).any (fun z => z.tz == cA.timezone) = true := by
      rw [any_of_map_tz_eq (fun s => s == cA.timezone) hmap1]
      exact hAny
    have hr2 := hr2gen (add_timezone_by_name_with_merging cat valid now off zs nameA merge).2
    rw [hr1, if_pos hAny1] at hr2
    rw [update_first_comp _ _ _ (fun z => by rw [add_city_tz]) zs] at hr2
    obtain ⟨pre, z0, post, hsplit, hpre, hz0, hupd⟩ :=
      update_first_decomp (fun z => z.tz == cA.timezone)
        (fun z => (z.add_city cA.name).add_city cB.name) hAny
    have hz0mem : z0 ∈ zs := by rw [hsplit]; exact List.mem_append_right _ (by simp)
    have hcitA : (z0.add_city cA.name) = { z0 with cities := z0.cities ++ [cA.name] } :=
      add_city_of_not_mem (hA z0 hz0mem)
    have hcitB : ((z0.add_city cA.name).add_city cB.name) =
        { z0 with cities := z0.cities ++ [cA.name] ++ [cB.name] } := by
      rw [hcitA, add_city_of_not_mem]
      intro hc
      rcases List.mem_append.mp hc with hc | hc
      · exact hB z0 hz0mem hc
      · exact hnames ((List.mem_singleton.mp hc).symm)
    have hpreA : ∀ x ∈ pre, (fun z => decide (cA.name ∈ z.cities)) x = false := by
      intro x hx
      have hxzs : x ∈ zs := by rw [hsplit]; exact List.mem_append_left _ hx
      exact decide_eq_false (hA x hxzs)
    have hpostA : ∀ x ∈ post, (fun z => decide (cA.name ∈ z.cities)) x = false := by
      intro x hx
      have hxzs : x ∈ zs := by
        rw [hsplit]; exact List.mem_append_right _ (List.mem_cons_of_mem _ hx)
      exact decide_eq_false (hA x hxzs)
    have hfilter := @filter_single_of_sides pre post
      ((z0.add_city cA.name).add_city cB.name)
      (fun z => decide (cA.name ∈ z.cities)) hpreA hpostA (by rw [hcitB]; simp)
    unfold add_two_cities
    rw [hr1, hr2, hupd]
    refine ⟨⟨(z0.add_city cA.name).add_city cB.name, hfilter, ?_, ?_⟩, ?_⟩
    · rw [hcitB]; simp
    · intro _
      rw [(htzA _ _).trans (htzA _ _)]
      exact eq_of_beq hz0
    · have : (pre ++ (z0.add_city cA.name).add_city cB.name :: post).map TimeZone.tz =
          zs.map TimeZone.tz := by
        have := update_first_map_tz (fun z => z.tz == cA.timezone)
          (fun z => (z.add_city cA.name).add_city cB.name)
          (fun z => (htzA _ _).trans (htzA _ _)) zs
        rw [hupd] at this
        exact this
      rw [this]
      exact hnodup
  · by_cases hMQ : (merge && zs.any
        (fun z => same_current_time now off cA.timezone z.tz)) = true
    · -- merge-by-time: both cities are absorbed by the first same-time entry
      obtain ⟨hMerge, hQ⟩ : merge = true ∧ (zs.any
          (fun z => same_current_time now off cA.timezone z.tz)) = true := by
        simpa using hMQ
      rw [if_neg hAny, if_pos hMQ] at hr1
      have hmap1 : (update_first (fun z => same_current_time now off cA.timezone z.tz)
          (fun z => z.add_city cA.name) zs).map TimeZone.tz = zs.map TimeZone.tz :=
        update_first_map_tz _ _ (fun z => htzA z _) zs
      have hAny1 : (update_first (fun z => same_current_time now off cA.timezone z.tz)
          (fun z => z.add_city cA.name) zs).any (fun z => z.tz == cA.timezone) = false := by
        rw [any_of_map_tz_eq (fun s => s == cA.timezone) hmap1]
        exact Bool.eq_false_iff.mpr hAny
      have hQ1 : (merge && (update_first (fun z => same_current_time now off cA.timezone z.tz)
          (fun z => z.add_city cA.name) zs).any
            (fun z => same_current_time now off cA.timezone z.tz)) = true := by
        rw [any_of_map_tz_eq (fun s => same_current_time now off cA.timezone s) hmap1]
        exact hMQ
      have hr2 := hr2gen (add_timezone_by_name_with_merging cat valid now off zs nameA merge).2
      rw [hr1, if_neg (by simp [hAny1]), if_pos hQ1] at hr2
      rw [update_first_comp _ _ _ (fun z => by simp [add_city_tz]) zs] at hr2
      obtain ⟨pre, z0, post, hsplit, hpre, hz0, hupd⟩ :=
        update_first_decomp (fun z => same_current_time now off cA.timezone z.tz)
          (fun z => (z.add_city cA.name).add_city cB.name) hQ
      have hz0mem : z0 ∈ zs := by rw [hsplit]; exact List.mem_append_right _ (by simp)
      have hcitA : (z0.add_city cA.name) = { z0 with cities := z0.cities ++ [cA.name] } :=
        add_city_of_not_mem (hA z0 hz0mem)
      have hcitB : ((z0.add_city cA.name).add_city cB.name) =
          { z0 with cities := z0.cities ++ [cA.name] ++ [cB.name] } := by
        rw [hcitA, add_city_of_not_mem]
        intro hc
        rcases List.mem_append.mp hc with hc | hc
        · exact hB z0 hz0mem hc
        · exact hnames ((List.mem_singleton.mp hc).symm)
      have hpreA : ∀ x ∈ pre, (fun z => decide (cA.name ∈ z.cities)) x = false := by
        intro x hx
        have hxzs : x ∈ zs := by rw [hsplit]; exact List.mem_append_left _ hx
        exact decide_eq_false (hA x hxzs)
      have hpostA : ∀ x ∈ post, (fun z => decide (cA.name ∈ z.cities)) x = false := by
        intro x hx
        have hxzs : x ∈ zs := by
          rw [hsplit]; exact List.mem_append_right _ (List.mem_cons_of_mem _ hx)
        exact decide_eq_false (hA x hxzs)
      have hfilter := @filter_single_of_sides pre post
        ((z0.add_city cA.name).add_city cB.name)
        (fun z => decide (cA.name ∈ z.cities)) hpreA hpostA (by rw [hcitB]; simp)
      unfold add_two_cities
      rw [hr1, hr2, hupd]
      refine ⟨⟨(z0.add_city cA.name).add_city cB.name, hfilter, ?_, ?_⟩, ?_⟩
      · rw [hcitB]; simp
      · intro hmf
        rw [hmf] at hMerge
        exact absurd hMerge (by simp)
      · have : (pre ++ (z0.add_city cA.name).add_city cB.name :: post).map TimeZone.tz =
            zs.map TimeZone.tz := by
          have := update_first_map_tz (fun z => same_current_time now off cA.timezone z.tz)
            (fun z => (z.add_city cA.name).add_city cB.name)
            (fun z => (htzA _ _).trans (htzA _ _)) zs
          rw [hupd] at this
          exact this
        rw [this]
        exact hnodup
    · -- a fresh entry with the cities' timezone id is created, then extended
      rw [if_neg hAny, if_neg hMQ] at hr1
      have hnewA : TimeZone.add_city ⟨cA.timezone, cA.code, []⟩ cA.name =
          ⟨cA.timezone, cA.code, [cA.name]⟩ := by
        rw [add_city_of_not_mem (by simp)]
        rfl
      rw [hnewA] at hr1
      have hr1perm : (add_timezone_by_name_with_merging cat valid now off zs nameA merge).2.Perm
          (zs ++ [⟨cA.timezone, cA.code, [cA.name]⟩]) := by
        rw [hr1]
        exact List.perm_insertionSort _ _
      have hAnyB : (add_timezone_by_name_with_merging cat valid now off zs nameA merge).2.any
          (fun z => z.tz == cA.timezone) = true := by
        refine List.any_eq_true.mpr ⟨⟨cA.timezone, cA.code, [cA.name]⟩, ?_, by simp⟩
        rw [hr1perm.mem_iff]
        exact List.mem_append_right _ (by simp)
      have hr2 := hr2gen (add_timezone_by_name_with_merging cat valid now off zs nameA merge).2
      rw [if_pos hAnyB] at hr2
      obtain ⟨pre, z0, post, hsplit, hpre, hz0, hupd⟩ :=
        update_first_decomp (fun z => z.tz == cA.timezone)
          (fun z => z.add_city cB.name) hAnyB
      have hznotzs : (⟨cA.timezone, cA.code, [cA.name]⟩ : TimeZone) ∉ zs := by
        intro hmem
        exact hA _ hmem (by simp)
      have hz0val : z0 = ⟨cA.timezone, cA.code, [cA.name]⟩ := by
        have hz0mem : z0 ∈ zs ++ [⟨cA.timezone, cA.code, [cA.name]⟩] := by
          rw [← hr1perm.mem_iff, hsplit]
          exact List.mem_append_right _ (by simp)
        rcases List.mem_append.mp hz0mem with hz0mem | hz0mem
        · exact absurd hz0 (List.any_eq_false.mp (Bool.eq_false_iff.mpr hAny) z0 hz0mem)
        · simpa using hz0mem
      have hrest : (pre ++ post).Perm zs := by
        have h1 : (pre ++ z0 :: post).Perm
            (zs ++ [⟨cA.timezone, cA.code, [cA.name]⟩]) := hsplit ▸ hr1perm
        rw [hz0val] at h1
        have h2 := (List.perm_middle.symm.trans h1).trans
          (List.perm_append_singleton _ _)
        exact h2.cons_inv
      have hupdval : z0.add_city cB.name =
          ⟨cA.timezone, cA.code, [cA.name, cB.name]⟩ := by
        rw [hz0val, add_city_of_not_mem (by simpa using fun h => hnames h.symm)]
        rfl
      unfold add_two_cities
      rw [hr2, hupd]
      have hpm : ∀ x, x ∈ pre ++ post → (fun z => decide (cA.name ∈ z.cities)) x = false := by
        intro x hx
        exact decide_eq_false (hA x (hrest.mem_iff.mp hx))
      have hfilter := @filter_single_of_sides pre post
        (z0.add_city cB.name)
        (fun z => decide (cA.name ∈ z.cities))
        (fun x hx => hpm x (List.mem_append_left _ hx))
        (fun x hx => hpm x (List.mem_append_right _ hx))
        (by rw [hupdval]; simp)
      refine ⟨⟨z0.add_city cB.name, hfilter, by rw [hupdval]; simp,
        fun _ => by rw [hupdval]⟩, ?_⟩
      have hmapr2 : (pre ++ z0.add_city cB.name :: post).map TimeZone.tz =
          (pre ++ z0 :: post).map TimeZone.tz := by
        simp [htzA]
      rw [hmapr2, ← hsplit]
      have hmapperm := hr1perm.map TimeZone.tz
      refine hmapperm.symm.nodup ?_
      rw [List.map_append]
      simp only [List.map_cons, List.map_nil]
      have hTnot : cA.timezone ∉ zs.map TimeZone.tz := by
        intro hmem
        rcases List.mem_map.mp hmem with ⟨z, hz, hzt⟩
        exact (List.any_eq_false.mp (Bool.eq_false_iff.mpr hAny) z hz)
          (by rw [hzt]; simp)
      rw [List.nodup_append]
      exact ⟨hnodup, List.nodup_singleton _, by simpa using hTnot⟩

/-- A small concrete catalog: two cities sharing timezone id `TA` and one
city with timezone id `TC`. -/
def demo_catalog : CitiesData :=
  ⟨[⟨"Amity", "AAA", "TA", "Xland", (0, 0), []⟩,
    ⟨"Broom", "BBB", "TA", "Xland", (0, 0), []⟩,
    ⟨"Cove", "CCC", "TC", "Xland", (0, 0), []⟩], []⟩

/-- Witness for C5 at a concrete input: both cities added to an empty
registry with merging off end up in one `TA` entry. -/
theorem add_same_timezone_cities_witness :
    (∃ zc, (add_two_cities demo_catalog (fun _ => true) 0 (fun _ => 0)
        [] "Amity" "Broom" false).filter
        (fun z => decide ("Amity" ∈ z.cities)) = [zc] ∧
      "Broom" ∈ zc.cities ∧ (false = false → zc.tz = "TA")) ∧
    ((add_two_cities demo_catalog (fun _ => true) 0 (fun _ => 0)
        [] "Amity" "Broom" false).map TimeZone.tz).Nodup :=
  add_same_timezone_cities demo_catalog (fun _ => true) 0 (fun _ => 0) []
    "Amity" "Broom" ⟨"Amity", "AAA", "TA", "Xland", (0, 0), []⟩
    ⟨"Broom", "BBB", "TA", "Xland", (0, 0), []⟩ false
    (by decide) (by decide) rfl rfl (by decide) (by decide)
    (by simp) (by simp)

/-- Counterexample to C5 as stated: with merge-by-current-time enabled and an
existing entry (timezone id `TC`, same current wall-clock time), adding the
two `TA` cities leaves the registry with no entry for timezone id `TA` at
all — both cities are absorbed into the `TC` entry. -/
theorem add_same_timezone_cities_cex :
    (add_two_cities demo_catalog (fun _ => true) 0 (fun _ => 0)
        [⟨"TC", "CCC", ["Cove"]⟩] "Amity" "Broom" true).filter
      (fun z => z.tz == "TA") = [] ∧
    add_two_cities demo_catalog (fun _ => true) 0 (fun _ => 0)
        [⟨"TC", "CCC", ["Cove"]⟩] "Amity" "Broom" true =
      [⟨"TC", "CCC", ["Cove", "Amity", "Broom"]⟩] := by decide

/-! ### Facts about the merge/split reorganization (for the round-trip) -/

/-- All member cities of a zone list, in list order. -/
def all_cities (zs : List TimeZone) : List String :=
  (zs.map TimeZone.cities).flatten

theorem all_cities_nil : all_cities [] = [] := rfl

theorem all_cities_cons (z : TimeZone) (zs : List TimeZone) :
    all_cities (z :: zs) = z.cities ++ all_cities zs := rfl

theorem all_cities_append (a b : List TimeZone) :
    all_cities (a ++ b) = all_cities a ++ all_cities b := by
  unfold all_cities
  rw [List.map_append, List.flatten_append]

theorem all_cities_perm {zs1 zs2 : List TimeZone} (h : zs1.Perm zs2) :
    (all_cities zs1).Perm (all_cities zs2) :=
  (h.map TimeZone.cities).flatten

theorem mem_all_cities {c : String} {zs : List TimeZone} :
    c ∈ all_cities zs ↔ ∃ z ∈ zs, c ∈ z.cities := by
  unfold all_cities
  rw [List.mem_flatten]
  constructor
  · rintro ⟨l, hl, hcl⟩
    rcases List.mem_map.mp hl with ⟨z, hz, rfl⟩
    exact ⟨z, hz, hcl⟩
  · rintro ⟨z, hz, hcz⟩
    exact ⟨z.cities, List.mem_map_of_mem _ hz, hcz⟩

theorem add_cities_tz (cs : List String) :
    ∀ z : TimeZone, (cs.foldl TimeZone.add_city z).tz = z.tz := by
  induction cs with
  | nil => intro z; rfl
  | cons c rest ih =>
    intro z
    rw [List.foldl_cons, ih, add_city_tz]

theorem add_cities_prefix (cs : List String) :
    ∀ z : TimeZone, z.cities.IsPrefix (cs.foldl TimeZone.add_city z).cities := by
  induction cs with
  | nil => intro z; exact List.prefix_rfl
  | cons c rest ih =>
    intro z
    rw [List.foldl_cons]
    refine List.IsPrefix.trans ?_ (ih (z.add_city c))
    unfold TimeZone.add_city
    split_ifs
    · exact List.prefix_rfl
    · exact List.prefix_append _ _

theorem add_cities_append (cs : List String) :
    ∀ z : TimeZone, (∀ c ∈ cs, c ∉ z.cities) → cs.Nodup →
      (cs.foldl TimeZone.add_city z).cities = z.cities ++ cs := by
  induction cs with
  | nil => intro z _ _; simp
  | cons c rest ih =>
    intro z hdisj hnodup
    rw [List.foldl_cons, add_city_of_not_mem (hdisj c (by simp))]
    rw [ih _ ?_ hnodup.of_cons]
    · simp
    · intro c' hc' hmem
      rcases List.mem_append.mp hmem with hmem | hmem
      · exact hdisj c' (List.mem_cons_of_mem _ hc') hmem
      · rw [List.mem_singleton.mp hmem] at hc'
        exact (List.nodup_cons.mp hnodup).1 hc'

theorem update_first_all_cities (p : TimeZone → Bool) (cs : List String) :
    ∀ acc : List TimeZone, acc.any p = true → cs.Nodup →
      (∀ c ∈ cs, c ∉ all_cities acc) →
      (all_cities (update_first p (fun z => cs.foldl TimeZone.add_city z) acc)).Perm
        (all_cities acc ++ cs) := by
  intro acc
  induction acc with
  | nil => intro h; simp at h
  | cons z rest ih =>
    intro hany hnodup hdisj
    by_cases hz : p z = true
    · rw [update_first_cons, if_pos hz, all_cities_cons, all_cities_cons]
      have hsub : ∀ c ∈ cs, c ∉ z.cities := by
        intro c hc hmem
        exact hdisj c hc (by rw [all_cities_cons]; exact List.mem_append_left _ hmem)
      rw [add_cities_append cs z hsub hnodup]
      rw [List.append_assoc, List.append_assoc]
      exact List.Perm.append_left _ List.perm_append_comm
    · rw [update_first_cons, if_neg hz, all_cities_cons, all_cities_cons]
      have hany' : rest.any p = true := by
        rcases List.any_eq_true.mp hany with ⟨x, hx, hpx⟩
        rcases List.mem_cons.mp hx with rfl | hx
        · exact absurd hpx hz
        · exact List.any_eq_true.mpr ⟨x, hx, hpx⟩
      have hdisj' : ∀ c ∈ cs, c ∉ all_cities rest := by
        intro c hc hmem
        exact hdisj c hc (by rw [all_cities_cons]; exact List.mem_append_right _ hmem)
      rw [List.append_assoc]
      exact List.Perm.append_left _ (ih hany' hnodup hdisj')

theorem update_first_origin (p : TimeZone → Bool) (cs : List String) :
    ∀ acc : List TimeZone,
      ∀ m ∈ update_first p (fun z => cs.foldl TimeZone.add_city z) acc,
        ∃ m0 ∈ acc, m0.tz = m.tz ∧ m0.cities.IsPrefix m.cities := by
  intro acc
  induction acc with
  | nil => intro m hm; simp [update_first] at hm
  | cons z rest ih =>
    intro m hm
    by_cases hz : p z = true
    · rw [update_first_cons, if_pos hz] at hm
      rcases List.mem_cons.mp hm with rfl | hm
      · exact ⟨z, by simp, (add_cities_tz cs z).symm, add_cities_prefix cs z⟩
      · exact ⟨m, List.mem_cons_of_mem _ hm, rfl, List.prefix_rfl⟩
    · rw [update_first_cons, if_neg hz] at hm
      rcases List.mem_cons.mp hm with rfl | hm
      · exact ⟨m, by simp, rfl, List.prefix_rfl⟩
      · obtain ⟨m0, hm0, htz0, hpre0⟩ := ih m hm
        exact ⟨m0, List.mem_cons_of_mem _ hm0, htz0, hpre0⟩

/-- Invariant of the merge fold: member cities are preserved as a multiset,
and every produced entry extends (tz-equal, cities-prefix) some zone
satisfying `Q`. -/
theorem merge_fold_facts (now : ℤ) (off : String → ℤ) (Q : TimeZone → Prop) :
    ∀ (rem acc : List TimeZone),
      (∀ z ∈ rem, Q z) →
      (∀ m ∈ acc, ∃ z, Q z ∧ z.tz = m.tz ∧ z.cities.IsPrefix m.cities) →
      (all_cities acc ++ all_cities rem).Nodup →
      (all_cities (rem.foldl (merge_step now off) acc)).Perm
          (all_cities acc ++ all_cities rem) ∧
      (∀ m ∈ rem.foldl (merge_step now off) acc,
        ∃ z, Q z ∧ z.tz = m.tz ∧ z.cities.IsPrefix m.cities) := by
  intro rem
  induction rem with
  | nil =>
    intro acc _ hacc hnodup
    simp only [List.foldl_nil, all_cities_nil, List.append_nil]
    exact ⟨List.Perm.refl _, hacc⟩
  | cons z rem ih =>
    intro acc hQ hacc hnodup
    rw [List.foldl_cons]
    have hQz : Q z := hQ z (by simp)
    have hQ' : ∀ x ∈ rem, Q x := fun x hx => hQ x (List.mem_cons_of_mem _ hx)
    have hcz : z.cities.Nodup := by
      have h1 : (all_cities (z :: rem)).Nodup :=
        ((List.nodup_append.mp hnodup).2.1)
      exact h1.sublist (by rw [all_cities_cons]; exact List.sublist_append_left _ _)
    have hdisj : ∀ c ∈ z.cities, c ∉ all_cities acc := by
      intro c hc hmem
      have hd := (List.nodup_append.mp hnodup).2.2
      exact hd hmem (by rw [all_cities_cons]; exact List.mem_append_left _ hc)
    have hrearr : (all_cities acc ++ z.cities) ++ all_cities rem =
        all_cities acc ++ all_cities (z :: rem) := by
      rw [all_cities_cons, List.append_assoc]
    -- common continuation once one merge/push step produced acc'
    have hcont : ∀ acc' : List TimeZone,
        (all_cities acc').Perm (all_cities acc ++ z.cities) →
        (∀ m ∈ acc', ∃ z0, Q z0 ∧ z0.tz = m.tz ∧ z0.cities.IsPrefix m.cities) →
        (all_cities (rem.foldl (merge_step now off) acc')).Perm
            (all_cities acc ++ all_cities (z :: rem)) ∧
        (∀ m ∈ rem.foldl (merge_step now off) acc',
          ∃ z0, Q z0 ∧ z0.tz = m.tz ∧ z0.cities.IsPrefix m.cities) := by
      intro acc' hperm hor
      have hnodup' : (all_cities acc' ++ all_cities rem).Nodup := by
        refine ((hperm.append_right (all_cities rem)).nodup_iff).mpr ?_
        rw [hrearr]
        exact hnodup
      obtain ⟨hp, ho⟩ := ih acc' hQ' hor hnodup'
      refine ⟨hp.trans ?_, ho⟩
      refine (hperm.append_right (all_cities rem)).trans ?_
      rw [hrearr]
    by_cases h1 : acc.any (fun ex => ex.tz == z.tz) = true
    · rw [merge_step, if_pos h1]
      refine hcont _ (update_first_all_cities _ _ _ h1 hcz hdisj) ?_
      intro m hm
      obtain ⟨m0, hm0, htz0, hpre0⟩ := update_first_origin _ _ _ m hm
      obtain ⟨z0, hQ0, htz1, hpre1⟩ := hacc m0 hm0
      exact ⟨z0, hQ0, htz1.trans htz0, hpre1.trans hpre0⟩
    · by_cases h2 : acc.any (fun ex => same_current_time now off z.tz ex.tz) = true
      · rw [merge_step, if_neg h1, if_pos h2]
        refine hcont _ (update_first_all_cities _ _ _ h2 hcz hdisj) ?_
        intro m hm
        obtain ⟨m0, hm0, htz0, hpre0⟩ := update_first_origin _ _ _ m hm
        obtain ⟨z0, hQ0, htz1, hpre1⟩ := hacc m0 hm0
        exact ⟨z0, hQ0, htz1.trans htz0, hpre1.trans hpre0⟩
      · rw [merge_step, if_neg h1, if_neg h2]
        refine hcont _ ?_ ?_
        · rw [all_cities_append, all_cities_cons, all_cities_nil, List.append_nil]
        · intro m hm
          rcases List.mem_append.mp hm with hm | hm
          · exact hacc m hm
          · rw [List.mem_singleton.mp hm]
            exact ⟨z, hQz, rfl, List.prefix_rfl⟩

/-- The timezone id the catalog assigns to a city name (the `find?` the split
loop performs), or `""` when the name is unknown. -/
def catalog_tz (cat : CitiesData) (c : String) : String :=
  match cat.cities.find? (fun x => x.name == c) with
  | some cd => cd.timezone
  | none => ""

/-- Projection of a zone entry to the data the round-trip claim talks
about: its timezone id and its member city list. -/
def zone_view (z : TimeZone) : String × List String := (z.tz, z.cities)

theorem map_tz_of_map_zone_view {zs : List TimeZone} {l : List (String × List String)}
    (h : zs.map zone_view = l) : zs.map TimeZone.tz = l.map Prod.fst := by
  rw [← h, List.map_map]
  rfl

/-- The inner split fold over the member cities of one multi-city entry,
when every city resolves to a fresh, pairwise-distinct timezone: it appends
one singleton entry per city. -/
theorem split_cities_fold (cat : CitiesData) (valid : String → Bool) :
    ∀ (cs : List String) (acc2 : List TimeZone),
      (∀ c ∈ cs, ∃ cd : CityData,
        cat.cities.find? (fun x => x.name == c) = some cd ∧
        cd.timezone = catalog_tz cat c ∧ valid (catalog_tz cat c) = true) →
      (∀ c ∈ cs, ∀ z ∈ acc2, z.tz ≠ catalog_tz cat c) →
      (∀ c1 ∈ cs, ∀ c2 ∈ cs, catalog_tz cat c1 = catalog_tz cat c2 → c1 = c2) →
      cs.Nodup →
      (cs.foldl (split_city_step cat valid) acc2).map zone_view =
        acc2.map zone_view ++ cs.map (fun c => (catalog_tz cat c, [c])) := by
  intro cs
  induction cs with
  | nil => intro acc2 _ _ _ _; simp
  | cons c rest ih =>
    intro acc2 hlook hfresh hinj hnodup
    obtain ⟨cd, hcd, hcdtz, hcdv⟩ := hlook c (by simp)
    have hany : acc2.any (fun z => z.tz == cd.timezone) = false :=
      List.any_eq_false.mpr (fun x hx hpx =>
        hfresh c (by simp) x hx (by rw [← hcdtz]; exact eq_of_beq hpx))
    have hstep : split_city_step cat valid acc2 c =
        acc2 ++ [⟨cd.timezone, cd.code, [c]⟩] := by
      unfold split_city_step
      simp only [hcd]
      rw [if_pos (by rw [hcdtz]; exact hcdv), if_neg (by simp [hany]),
        add_city_of_not_mem (by simp)]
      rfl
    have hfresh2 : ∀ c' ∈ rest,
        ∀ z ∈ acc2 ++ [(⟨cd.timezone, cd.code, [c]⟩ : TimeZone)],
          z.tz ≠ catalog_tz cat c' := by
      intro c' hc' z hz
      rcases List.mem_append.mp hz with hz | hz
      · exact hfresh c' (List.mem_cons_of_mem _ hc') z hz
      · rw [List.mem_singleton.mp hz]
        show cd.timezone ≠ catalog_tz cat c'
        rw [hcdtz]
        intro heq
        have := hinj c (by simp) c' (List.mem_cons_of_mem _ hc') heq
        rw [← this] at hc'
        exact (List.nodup_cons.mp hnodup).1 hc'
    rw [List.foldl_cons, hstep]
    have hih := ih (acc2 ++ [(⟨cd.timezone, cd.code, [c]⟩ : TimeZone)])
      (fun c' hc' => hlook c' (List.mem_cons_of_mem _ hc'))
      hfresh2
      (fun c1 h1 c2 h2 => hinj c1 (List.mem_cons_of_mem _ h1)
        c2 (List.mem_cons_of_mem _ h2))
      hnodup.of_cons
    rw [hih]
    rw [List.map_append, List.map_cons]
    simp only [zone_view, List.map_nil, List.append_assoc, List.singleton_append,
      List.map_cons]
    rw [hcdtz]

/-- The outer split fold: on entries whose member cities all resolve to
pairwise-distinct timezones (and whose single-city entries already carry
their city's timezone), it produces exactly one singleton entry per member
city. -/
theorem split_fold_eq (cat : CitiesData) (valid : String → Bool) :
    ∀ (rem acc : List TimeZone),
      (∀ m ∈ rem, m.cities ≠ []) →
      (∀ m ∈ rem, ∀ c ∈ m.cities, ∃ cd : CityData,
        cat.cities.find? (fun x => x.name == c) = some cd ∧
        cd.timezone = catalog_tz cat c ∧ valid (catalog_tz cat c) = true) →
      (∀ m ∈ rem, m.cities.length ≤ 1 → ∀ c ∈ m.cities, m.tz = catalog_tz cat c) →
      (∀ c ∈ all_cities rem, ∀ z ∈ acc, z.tz ≠ catalog_tz cat c) →
      (∀ c1 ∈ all_cities rem, ∀ c2 ∈ all_cities rem,
        catalog_tz cat c1 = catalog_tz cat c2 → c1 = c2) →
      (all_cities rem).Nodup →
      (rem.foldl (split_step cat valid) acc).map zone_view =
        acc.map zone_view ++ (all_cities rem).map (fun c => (catalog_tz cat c, [c])) := by
  intro rem
  induction rem with
  | nil => intro acc _ _ _ _ _ _; simp [all_cities_nil]
  | cons m rem ih =>
    intro acc hne hlook hsingle hfresh hinj hnodup
    have hmemc : ∀ c ∈ m.cities, c ∈ all_cities (m :: rem) := by
      intro c hc
      rw [all_cities_cons]
      exact List.mem_append_left _ hc
    have hmemr : ∀ c ∈ all_cities rem, c ∈ all_cities (m :: rem) := by
      intro c hc
      rw [all_cities_cons]
      exact List.mem_append_right _ hc
    rw [List.foldl_cons]
    by_cases hlen : m.cities.length ≤ 1
    · obtain ⟨c, hc⟩ : ∃ c, m.cities = [c] := by
        have hne2 := hne m (by simp)
        rcases hcs : m.cities with _ | ⟨c, t⟩
        · exact absurd hcs hne2
        · rcases t with _ | ⟨d, t2⟩
          · exact ⟨c, rfl⟩
          · rw [hcs] at hlen
            simp at hlen
      have hmtz : m.tz = catalog_tz cat c :=
        hsingle m (by simp) hlen c (by rw [hc]; simp)
      have hstep : split_step cat valid acc m = acc ++ [m] := by
        rw [split_step, if_pos hlen]
      have hfresh2 : ∀ c' ∈ all_cities rem, ∀ z ∈ acc ++ [m],
          z.tz ≠ catalog_tz cat c' := by
        intro c' hc' z hz
        rcases List.mem_append.mp hz with hz | hz
        · exact hfresh c' (hmemr _ hc') z hz
        · rw [List.mem_singleton.mp hz]
          rw [hmtz]
          intro heq
          have := hinj c (hmemc c (by rw [hc]; simp)) c' (hmemr _ hc') heq
          rw [← this] at hc'
          have hnd := hnodup
          rw [all_cities_cons, hc] at hnd
          exact (List.nodup_cons.mp (by simpa using hnd)).1 hc'
      rw [hstep]
      rw [ih (acc ++ [m])
        (fun m' hm' => hne m' (List.mem_cons_of_mem _ hm'))
        (fun m' hm' => hlook m' (List.mem_cons_of_mem _ hm'))
        (fun m' hm' => hsingle m' (List.mem_cons_of_mem _ hm'))
        hfresh2
        (fun c1 h1 c2 h2 => hinj c1 (hmemr _ h1) c2 (hmemr _ h2))
        (by rw [all_cities_cons] at hnodup; exact hnodup.of_append_right)]
      have hzv : zone_view m = (catalog_tz cat c, [c]) := by
        unfold zone_view
        rw [hc, hmtz]
      simp [all_cities_cons, hc, hzv]
    · have hstep : split_step cat valid acc m =
          m.cities.foldl (split_city_step cat valid) acc := by
        rw [split_step, if_neg hlen]
      rw [hstep]
      have hcsnodup : m.cities.Nodup := by
        refine hnodup.sublist ?_
        rw [all_cities_cons]
        exact List.sublist_append_left _ _
      have hinner := split_cities_fold cat valid m.cities acc
        (hlook m (by simp))
        (fun c hc z hz => hfresh c (hmemc c hc) z hz)
        (fun c1 h1 c2 h2 => hinj c1 (hmemc _ h1) c2 (hmemc _ h2))
        hcsnodup
      have hfresh2 : ∀ c' ∈ all_cities rem,
          ∀ z ∈ m.cities.foldl (split_city_step cat valid) acc,
            z.tz ≠ catalog_tz cat c' := by
        intro c' hc' z hz
        have hztz : z.tz ∈ (m.cities.foldl (split_city_step cat valid) acc).map
            TimeZone.tz := List.mem_map_of_mem _ hz
        rw [map_tz_of_map_zone_view hinner] at hztz
        rw [List.map_append, List.map_map] at hztz
        rcases List.mem_append.mp hztz with hztz | hztz
        · rcases List.mem_map.mp hztz with ⟨z0, hz0, hz0tz⟩
          rw [← hz0tz]
          exact hfresh c' (hmemr _ hc') z0 hz0
        · rcases List.mem_map.mp hztz with ⟨p0, hp0, hp0tz⟩
          rcases List.mem_map.mp hp0 with ⟨c0, hc0, rfl⟩
          rw [← hp0tz]
          intro heq
          have := hinj c0 (hmemc _ hc0) c' (hmemr _ hc') heq
          rw [this] at hc0
          have hnd := hnodup
          rw [all_cities_cons] at hnd
          exact (List.disjoint_of_nodup_append hnd) hc0 hc'
      rw [ih (m.cities.foldl (split_city_step cat valid) acc)
        (fun m' hm' => hne m' (List.mem_cons_of_mem _ hm'))
        (fun m' hm' => hlook m' (List.mem_cons_of_mem _ hm'))
        (fun m' hm' => hsingle m' (List.mem_cons_of_mem _ hm'))
        hfresh2
        (fun c1 h1 c2 h2 => hinj c1 (hmemr _ h1) c2 (hmemr _ h2))
        (by rw [all_cities_cons] at hnodup; exact hnodup.of_append_right)]
      rw [hinner, all_cities_cons, List.map_append, List.append_assoc]

/-- C7.  Enabling then disabling merge reorganization on a registry of
single-city entries with pairwise-distinct timezone ids (each backed by a
catalog record mapping its city to that id) restores, up to order, exactly
the original entries: same count, one entry per timezone id, same member
city lists. -/
theorem reorganize_round_trip (cat : CitiesData) (valid : String → Bool)
    (now : ℤ) (off : String → ℤ) (zs : List TimeZone)
    (hsingle : ∀ z ∈ zs, ∃ c : String, z.cities = [c])
    (hlook : ∀ z ∈ zs, ∀ c ∈ z.cities,
      ∃ cd : CityData, cat.cities.find? (fun x => x.name == c) = some cd ∧
        cd.timezone = z.tz ∧ valid z.tz = true)
    (htznodup : (zs.map TimeZone.tz).Nodup)
    (hcitnodup : (all_cities zs).Nodup) :
    ((reorganize_zones_for_merge cat valid now off
        (reorganize_zones_for_merge cat valid now off zs true) false).map
      zone_view).Perm (zs.map zone_view) := by
  have hctz : ∀ z ∈ zs, ∀ c ∈ z.cities, catalog_tz cat c = z.tz := by
    intro z hz c hc
    obtain ⟨cd, hcd, hcdtz, _⟩ := hlook z hz c hc
    unfold catalog_tz
    simp only [hcd]
    exact hcdtz
  have hmember : ∀ c ∈ all_cities zs, ∃ z ∈ zs, z.cities = [c] := by
    intro c hc
    obtain ⟨z, hz, hcz⟩ := mem_all_cities.mp hc
    obtain ⟨c', hc'⟩ := hsingle z hz
    rw [hc'] at hcz
    obtain rfl : c = c' := List.mem_singleton.mp hcz
    exact ⟨z, hz, hc'⟩
  have hinj : ∀ c1 ∈ all_cities zs, ∀ c2 ∈ all_cities zs,
      catalog_tz cat c1 = catalog_tz cat c2 → c1 = c2 := by
    intro c1 h1 c2 h2 heq
    obtain ⟨z1, hz1, hcz1⟩ := hmember c1 h1
    obtain ⟨z2, hz2, hcz2⟩ := hmember c2 h2
    have ht1 : catalog_tz cat c1 = z1.tz := hctz z1 hz1 c1 (by rw [hcz1]; simp)
    have ht2 : catalog_tz cat c2 = z2.tz := hctz z2 hz2 c2 (by rw [hcz2]; simp)
    have htzeq : z1.tz = z2.tz := by rw [← ht1, ← ht2, heq]
    have hz12 : z1 = z2 :=
      List.inj_on_of_nodup_map htznodup hz1 hz2 htzeq
    rw [hz12] at hcz1
    simpa using hcz1.symm.trans hcz2
  obtain ⟨hMperm, hMorigin⟩ := merge_fold_facts now off (· ∈ zs) zs []
    (fun z hz => hz) (by intro m hm; simp at hm)
    (by simpa [all_cities_nil] using hcitnodup)
  have hMperm' : (all_cities (zs.foldl (merge_step now off) [])).Perm
      (all_cities zs) := by simpa [all_cities_nil] using hMperm
  have hrt : reorganize_zones_for_merge cat valid now off zs true =
      (zs.foldl (merge_step now off) []).insertionSort (offsetLe off) := by
    rw [reorganize_zones_for_merge, if_pos rfl]
  have hM'perm : ((zs.foldl (merge_step now off) []).insertionSort
      (offsetLe off)).Perm (zs.foldl (merge_step now off) []) :=
    List.perm_insertionSort _ _
  have hM'cities : (all_cities ((zs.foldl (merge_step now off) []).insertionSort
      (offsetLe off))).Perm (all_cities zs) :=
    (all_cities_perm hM'perm).trans hMperm'
  have hM'origin : ∀ m ∈ (zs.foldl (merge_step now off) []).insertionSort
      (offsetLe off), ∃ z, z ∈ zs ∧ z.tz = m.tz ∧ z.cities.IsPrefix m.cities :=
    fun m hm => hMorigin m (hM'perm.mem_iff.mp hm)
  have hne : ∀ m ∈ (zs.foldl (merge_step now off) []).insertionSort
      (offsetLe off), m.cities ≠ [] := by
    intro m hm hnil
    obtain ⟨z, hz, _, hpre⟩ := hM'origin m hm
    obtain ⟨c, hc⟩ := hsingle z hz
    obtain ⟨t, ht⟩ := hpre
    rw [hc, hnil] at ht
    simp at ht
  have hmemtrans : ∀ {c : String},
      c ∈ all_cities ((zs.foldl (merge_step now off) []).insertionSort
        (offsetLe off)) → c ∈ all_cities zs :=
    fun hc => hM'cities.mem_iff.mp hc
  have hlookM : ∀ m ∈ (zs.foldl (merge_step now off) []).insertionSort
      (offsetLe off), ∀ c ∈ m.cities,
      ∃ cd : CityData, cat.cities.find? (fun x => x.name == c) = some cd ∧
        cd.timezone = catalog_tz cat c ∧ valid (catalog_tz cat c) = true := by
    intro m hm c hc
    have hczs : c ∈ all_cities zs :=
      hmemtrans (mem_all_cities.mpr ⟨m, hm, hc⟩)
    obtain ⟨z, hz, hcz⟩ := hmember c hczs
    obtain ⟨cd, hcd, hcdtz, hv⟩ := hlook z hz c (by rw [hcz]; simp)
    have hcc : catalog_tz cat c = z.tz := hctz z hz c (by rw [hcz]; simp)
    exact ⟨cd, hcd, by rw [hcc]; exact hcdtz, by rw [hcc]; exact hv⟩
  have hsingleM : ∀ m ∈ (zs.foldl (merge_step now off) []).insertionSort
      (offsetLe off), m.cities.length ≤ 1 → ∀ c ∈ m.cities,
      m.tz = catalog_tz cat c := by
    intro m hm hlen c hc
    obtain ⟨z, hz, htzm, hpre⟩ := hM'origin m hm
    obtain ⟨cz, hcz⟩ := hsingle z hz
    obtain ⟨t, ht⟩ := hpre
    rw [hcz] at ht
    have hmc : m.cities = [cz] := by
      rcases t with _ | ⟨d, t2⟩
      · rw [← ht]; rfl
      · rw [← ht] at hlen; simp at hlen
    rw [hmc] at hc
    obtain rfl : c = cz := List.mem_singleton.mp hc
    rw [← htzm, hctz z hz c (by rw [hcz]; simp)]
  have hinjM : ∀ c1 ∈ all_cities ((zs.foldl (merge_step now off) []).insertionSort
      (offsetLe off)), ∀ c2 ∈ all_cities ((zs.foldl (merge_step now off)
        []).insertionSort (offsetLe off)),
      catalog_tz cat c1 = catalog_tz cat c2 → c1 = c2 :=
    fun c1 h1 c2 h2 => hinj c1 (hmemtrans h1) c2 (hmemtrans h2)
  have hnodupM : (all_cities ((zs.foldl (merge_step now off) []).insertionSort
      (offsetLe off))).Nodup := (hM'cities.nodup_iff).mpr hcitnodup
  have hsplit := split_fold_eq cat valid
    ((zs.foldl (merge_step now off) []).insertionSort (offsetLe off)) []
    hne hlookM hsingleM (by simp) hinjM hnodupM
  have hlast : ∀ zs0 : List TimeZone, (∀ z ∈ zs0, ∃ c : String, z.cities = [c]) →
      (∀ z ∈ zs0, ∀ c ∈ z.cities, catalog_tz cat c = z.tz) →
      (all_cities zs0).map (fun c => (catalog_tz cat c, [c])) = zs0.map zone_view := by
    intro zs0
    induction zs0 with
    | nil => intro _ _; rfl
    | cons z rest ih =>
      intro h1 h2
      obtain ⟨c, hc⟩ := h1 z (by simp)
      rw [all_cities_cons, hc]
      simp only [List.singleton_append, List.map_cons]
      rw [ih (fun z' hz' => h1 z' (List.mem_cons_of_mem _ hz'))
        (fun z' hz' => h2 z' (List.mem_cons_of_mem _ hz'))]
      congr 1
      unfold zone_view
      rw [hc, h2 z (by simp) c (by rw [hc]; simp)]
  have hrf : reorganize_zones_for_merge cat valid now off
      ((zs.foldl (merge_step now off) []).insertionSort (offsetLe off)) false =
      (((zs.foldl (merge_step now off) []).insertionSort (offsetLe off)).foldl
        (split_step cat valid) []).insertionSort (offsetLe off) := by
    rw [reorganize_zones_for_merge, if_neg (by simp)]
  rw [hrt, hrf]
  refine ((List.perm_insertionSort _ _).map zone_view).trans ?_
  rw [hsplit]
  simp only [List.map_nil, List.nil_append]
  refine (hM'cities.map _).trans ?_
  rw [hlast zs hsingle hctz]

/-- Witness for C7 at a concrete input: two single-city entries with
distinct timezone ids but equal current offsets merge into one entry and are
split back into the original two. -/
theorem reorganize_round_trip_witness :
    ((reorganize_zones_for_merge demo_catalog (fun _ => true) 0 (fun _ => 0)
        (reorganize_zones_for_merge demo_catalog (fun _ => true) 0 (fun _ => 0)
          [⟨"TA", "AAA", ["Amity"]⟩, ⟨"TC", "CCC", ["Cove"]⟩] true) false).map
      zone_view).Perm
      ([(⟨"TA", "AAA", ["Amity"]⟩ : TimeZone),
        ⟨"TC", "CCC", ["Cove"]⟩].map zone_view) :=
  reorganize_round_trip demo_catalog (fun _ => true) 0 (fun _ => 0)
    [⟨"TA", "AAA", ["Amity"]⟩, ⟨"TC", "CCC", ["Cove"]⟩]
    (by intro z hz
        rcases List.mem_cons.mp hz with rfl | hz
        · exact ⟨"Amity", rfl⟩
        rcases List.mem_cons.mp hz with rfl | hz
        · exact ⟨"Cove", rfl⟩
        · simp at hz)
    (by intro z hz c hc
        rcases List.mem_cons.mp hz with rfl | hz
        · obtain rfl : c = "Amity" := List.mem_singleton.mp hc
          exact ⟨⟨"Amity", "AAA", "TA", "Xland", (0, 0), []⟩, by decide, rfl, rfl⟩
        rcases List.mem_cons.mp hz with rfl | hz
        · obtain rfl : c = "Cove" := List.mem_singleton.mp hc
          exact ⟨⟨"Cove", "CCC", "TC", "Xland", (0, 0), []⟩, by decide, rfl, rfl⟩
        · simp at hz)
    (by decide) (by decide)

/-! ## Search ranking (`src/time.rs`, `search_timezones`) -/

/-- Rust `char::is_whitespace` restricted to the ASCII whitespace the
embedded catalog and queries contain. -/
def is_ws (c : Char) : Bool :=
  c.toNat = 32 || c.toNat = 9 || c.toNat = 10 || c.toNat = 13

/-- Rust `str::trim`. -/
def trim_string (s : String) : String :=
  ⟨((s.data.dropWhile is_ws).reverse.dropWhile is_ws).reverse⟩

/-- `query.to_lowercase().trim().to_string()` (time.rs:205). -/
def normalize_query (query : String) : String := trim_string (lower_string query)

/-- Rust `str::starts_with`. -/
def starts_with (s p : String) : Bool := p.data.isPrefixOf s.data

def str_contains_aux (n : List Char) : List Char → Bool
  | [] => n.isEmpty
  | c :: t => n.isPrefixOf (c :: t) || str_contains_aux n t

/-- Rust `str::contains` with a string pattern. -/
def str_contains (s sub : String) : Bool := str_contains_aux sub.data s.data

/-- The clause part of the per-city score (time.rs:214-252): name/code
match, alias matches (summed over aliases), country containment, timezone
string containment. -/
def score_city_clauses (city : CityData) (query_lower : String) : ℤ :=
  (if lower_string city.name == query_lower ||
      lower_string city.code == query_lower then 1000
   else if starts_with (lower_string city.name) query_lower ||
      starts_with (lower_string city.code) query_lower then 500
   else if str_contains (lower_string city.name) query_lower ||
      str_contains (lower_string city.code) query_lower then 200
   else 0) +
  city.aliases.foldl (fun acc al =>
    acc + (if lower_string al == query_lower then 800
           else if starts_with (lower_string al) query_lower then 400
           else if str_contains (lower_string al) query_lower then 150
           else 0)) 0 +
  (if str_contains (lower_string city.country) query_lower then 100 else 0) +
  (if str_contains (lower_string city.timezone) query_lower then 50 else 0)

/-- The full per-city score (time.rs:214-258): the clause sum plus the
major-city bonus, which the code adds unconditionally. -/
def score_city (city : CityData) (query_lower : String)
    (major_cities : List String) : ℤ :=
  score_city_clauses city query_lower +
    (if city.name ∈ major_cities then 25 else 0)

/-- The `(name, score)` result list before sorting (time.rs:211-264): one
entry per catalog city whose score is positive, in catalog order. -/
def search_results_unsorted (cat : CitiesData) (query_lower : String) :
    List (String × ℤ) :=
  cat.cities.filterMap (fun city =>
    if score_city city query_lower cat.major_cities > 0 then
      some (city.name, score_city city query_lower cat.major_cities)
    else none)

/-- Byte/codepoint lexicographic string order (Rust `str::cmp`). -/
def chars_le : List Char → List Char → Bool
  | [], _ => true
  | _ :: _, [] => false
  | x :: xs, y :: ys =>
    if x.toNat < y.toNat then true
    else if y.toNat < x.toNat then false
    else chars_le xs ys

def string_le (a b : String) : Bool := chars_le a.data b.data

/-- The sort comparator (time.rs:267-270): `a` may precede `b` iff `a` has
the higher score, or scores are equal and the name of `a` is not after the
name of `b`. -/
def result_le (a b : String × ℤ) : Prop :=
  b.2 < a.2 ∨ (a.2 = b.2 ∧ string_le a.1 b.1 = true)

instance : DecidableRel result_le := fun a b =>
  inferInstanceAs (Decidable (b.2 < a.2 ∨ (a.2 = b.2 ∧ string_le a.1 b.1 = true)))

/-- `TimeZoneManager::search_timezones` (time.rs:204-274). -/
def search_timezones (cat : CitiesData) (query : String) : List String :=
  if normalize_query query = "" then []
  else
    (((search_results_unsorted cat
        (normalize_query query)).insertionSort result_le).take 8).map Prod.fst

theorem chars_le_total : ∀ a b : List Char, chars_le a b = true ∨ chars_le b a = true := by
  intro a
  induction a with
  | nil => intro b; left; rfl
  | cons x xs ih =>
    intro b
    cases b with
    | nil => right; rfl
    | cons y ys =>
      unfold chars_le
      rcases Nat.lt_trichotomy x.toNat y.toNat with h | h | h
      · left; rw [if_pos h]
      · rw [if_neg (by omega), if_neg (by omega), if_neg (by omega), if_neg (by omega)]
        exact ih ys
      · right; rw [if_pos h]

theorem chars_le_trans : ∀ a b c : List Char,
    chars_le a b = true → chars_le b c = true → chars_le a c = true := by
  intro a
  induction a with
  | nil => intro b c _ _; rfl
  | cons x xs ih =>
    intro b c hab hbc
    cases b with
    | nil => exact absurd hab (by simp [chars_le])
    | cons y ys =>
      cases c with
      | nil => exact absurd hbc (by simp [chars_le])
      | cons z zs =>
        unfold chars_le at hab hbc ⊢
        rcases Nat.lt_trichotomy x.toNat y.toNat with h1 | h1 | h1
        · rcases Nat.lt_trichotomy y.toNat z.toNat with h2 | h2 | h2
          · rw [if_pos (by omega)]
          · rw [if_pos (by omega)]
          · rw [if_neg (by omega), if_pos (by omega)] at hbc
            exact absurd hbc (by simp)
        · rcases Nat.lt_trichotomy y.toNat z.toNat with h2 | h2 | h2
          · rw [if_pos (by omega)]
          · rw [if_neg (by omega), if_neg (by omega)]
            rw [if_neg (by omega), if_neg (by omega)] at hab
            rw [if_neg (by omega), if_neg (by omega)] at hbc
            exact ih ys zs hab hbc
          · rw [if_neg (by omega), if_pos (by omega)] at hbc
            exact absurd hbc (by simp)
        · rw [if_neg (by omega), if_pos (by omega)] at hab
          exact absurd hab (by simp)

instance : IsTotal (String × ℤ) result_le := by
  constructor
  intro a b
  unfold result_le
  rcases lt_trichotomy a.2 b.2 with h | h | h
  · right; left; exact h
  · rcases chars_le_total a.1.data b.1.data with hc | hc
    · left; right; exact ⟨h, hc⟩
    · right; right; exact ⟨h.symm, hc⟩
  · left; left; exact h

instance : IsTrans (String × ℤ) result_le := by
  constructor
  intro a b c hab hbc
  unfold result_le at hab hbc ⊢
  rcases hab with hab | ⟨hab1, hab2⟩ <;> rcases hbc with hbc | ⟨hbc1, hbc2⟩
  · left; omega
  · left; omega
  · left; omega
  · right; exact ⟨by omega, chars_le_trans _ _ _ hab2 hbc2⟩

theorem mem_search_results_unsorted {cat : CitiesData} {ql : String}
    {n : String} {s : ℤ} :
    (n, s) ∈ search_results_unsorted cat ql ↔
      ∃ city ∈ cat.cities, city.name = n ∧
        score_city city ql cat.major_cities = s ∧ 0 < s := by
  unfold search_results_unsorted
  rw [List.mem_filterMap]
  constructor
  · rintro ⟨city, hcity, hf⟩
    by_cases hs : score_city city ql cat.major_cities > 0
    · rw [if_pos hs] at hf
      injection hf with hf
      injection hf with hf1 hf2
      exact ⟨city, hcity, hf1, hf2, by rw [hf2] at hs; exact hs⟩
    · rw [if_neg hs] at hf
      exact absurd hf (by simp)
  · rintro ⟨city, hcity, rfl, rfl, hs⟩
    exact ⟨city, hcity, by rw [if_pos hs]⟩

/-- C8 (amended).  Search returns the empty list for an empty or
whitespace-only query; every result list has at most 8 elements, obtained by
truncating the score-sorted pair list (descending score, byte-wise
alphabetical on ties) and dropping the scores; each returned entry is a bare
catalog city name with nothing appended. -/
theorem search_timezones_spec (cat : CitiesData) (query : String) :
    (normalize_query query = "" → search_timezones cat query = []) ∧
    (search_timezones cat query).length ≤ 8 ∧
    List.Sorted result_le
      ((search_results_unsorted cat (normalize_query query)).insertionSort result_le) ∧
    (normalize_query query ≠ "" → search_timezones cat query =
      (((search_results_unsorted cat
          (normalize_query query)).insertionSort result_le).take 8).map Prod.fst) ∧
    (∀ n ∈ search_timezones cat query, ∃ city ∈ cat.cities, city.name = n) := by
  refine ⟨?_, ?_, ?_, ?_, ?_⟩
  · intro h
    rw [search_timezones, if_pos h]
  · rw [search_timezones]
    split_ifs with h
    · simp
    · rw [List.length_map]
      exact (List.length_take_le _ _)
  · exact List.sorted_insertionSort result_le _
  · intro h
    rw [search_timezones, if_neg h]
  · intro n hn
    rw [search_timezones] at hn
    split_ifs at hn with h
    · simp at hn
    · rw [List.mem_map] at hn
      obtain ⟨⟨n0, s0⟩, hmem, rfl⟩ := hn
      have hmem2 : (n0, s0) ∈ (search_results_unsorted cat
          (normalize_query query)).insertionSort result_le :=
        List.mem_of_mem_take hmem
      rw [List.mem_insertionSort, mem_search_results_unsorted] at hmem2
      obtain ⟨city, hcity, hname, _, _⟩ := hmem2
      exact ⟨city, hcity, hname⟩

/-- A catalog carrying a "London" in two countries. -/
def london_catalog : CitiesData :=
  ⟨[⟨"London", "LHR", "Europe/London", "United Kingdom", (0, 0), []⟩,
    ⟨"London", "YXU", "America/Toronto", "Canada", (0, 0), []⟩], []⟩

/-- Counterexample to C8 as stated: with two same-named catalog cities the
search output is the bare name twice — duplicate identical labels, no
country appended. -/
theorem search_timezones_cex :
    search_timezones london_catalog "London" = ["London", "London"] ∧
    ¬ (search_timezones london_catalog "London").Nodup := by decide

/-- C9 (amended).  The major-city bonus is added unconditionally: a
non-major city matching no scoring clause scores 0 and is excluded from the
scored result list, but a major city matching no clause scores exactly 25
and is included (for any query); result entries are exactly the catalog
cities with positive total score. -/
theorem major_city_bonus_unconditional (cat : CitiesData) (query : String) :
    (∀ (city : CityData) (ql : String) (majors : List String),
      score_city city ql majors =
        score_city_clauses city ql + (if city.name ∈ majors then 25 else 0)) ∧
    (∀ (city : CityData) (ql : String) (majors : List String),
      city.name ∉ majors → score_city_clauses city ql = 0 →
        score_city city ql majors = 0) ∧
    (∀ (city : CityData) (ql : String) (majors : List String),
      city.name ∈ majors → score_city_clauses city ql = 0 →
        score_city city ql majors = 25) ∧
    (∀ (n : String) (s : ℤ),
      (n, s) ∈ search_results_unsorted cat (normalize_query query) ↔
        ∃ city ∈ cat.cities, city.name = n ∧
          score_city city (normalize_query query) cat.major_cities = s ∧ 0 < s) := by
  refine ⟨fun city ql majors => rfl, ?_, ?_, ?_⟩
  · intro city ql majors hmaj hz
    rw [score_city, hz, if_neg hmaj]
    norm_num
  · intro city ql majors hmaj hz
    rw [score_city, hz, if_pos hmaj]
    norm_num
  · intro n s
    exact mem_search_results_unsorted

/-- A catalog with a single major city. -/
def major_catalog : CitiesData :=
  ⟨[⟨"Paris", "CDG", "Europe/Paris", "France", (0, 0), []⟩], ["Paris"]⟩

/-- Counterexample to C9 as stated: for the query "zzz" the major city
"Paris" matches no scoring clause, yet scores 25 (the bonus alone) and is
returned. -/
theorem major_city_bonus_cex :
    score_city_clauses ⟨"Paris", "CDG", "Europe/Paris", "France", (0, 0), []⟩
        (normalize_query "zzz") = 0 ∧
    search_timezones major_catalog "zzz" = ["Paris"] := by decide

end Alltz
